import Mathlib

/-!
The class template `ywen::vector` of `Error-Handling/Demo/vector/vector.hpp`.

A shallow embedding of the study vector and the properties of its
`insert` / `erase` / `push_back` / `pop_back` operations.

Modelling conventions

* The three data members are kept in a record.  `m_size` and `m_capacity` are
  `unsigned int` in the source: they are natural numbers here and every
  arithmetic operation on them is reduced modulo `2^32` where the source
  computes in `unsigned int`, and modulo `2^64` where it computes in `size_t`.
* `m_vec` is `none` for `nullptr` and `some buf` for a pointer to a heap array
  with exactly `buf.length` slots.  `new _Ty[n]` yields `n` default-initialised
  slots.
* An access `p[i]` outside the allocated slots of `p` (or through `nullptr`)
  is undefined behaviour; a call that performs one ends there with
  `Exception.undefined_behaviour`.
* `new`, the copy assignment of `_Ty` and the destructor of `_Ty` may throw.
  Which of them throw during one call is fixed by an `Env`.
* The replacement buffer is owned by a `std::unique_ptr<_Ty[]>` until it is
  adopted.  When a copy throws, the destructor of the `unique_ptr` releases the
  buffer while the exception leaves the function; an element destructor that
  throws there makes the program call `std::terminate`.
* A member function maps the state before the call to an `Outcome`: the result
  of the call together with the state of the object when the call is left.
  Assignments to data members made before an exception leaves the function
  are therefore visible in the outcome.
* A failed `assert` stops the call with `Exception.assertion line`, where
  `line` is the line of the assertion in `vector.hpp`.
* `insert` sizes the replacement buffer with the capacity before the call, so
  the build phase of an `insert` into a vector without a free slot accesses a
  slot outside that buffer and the call ends there.  Properties of the
  bookkeeping of such calls are stated for steps of which the build phase is
  taken to have completed (`Step.built`), with any replacement buffer: these
  are lines 222-227 and the commit phase of lines 257-274.
-/

namespace ywen

/-- Number of values of `unsigned int` (`2^32`). -/
def UINT_MOD : Nat := 4294967296

/-- Number of values of `size_t` (`2^64`). -/
def SIZE_MOD : Nat := 18446744073709551616

/-- Ways in which a call can end other than by returning. -/
inductive Exception where
  /-- The exception `std::bad_alloc` thrown by `new _Ty[n]`. -/
  | bad_alloc
  /-- An exception thrown by the copy assignment operator of `_Ty`. -/
  | copy_assign (code : Nat)
  /-- An exception thrown by the destructor of `_Ty` during `delete[]`. -/
  | destructor (code : Nat)
  /-- A failed `assert` at the given line of `vector.hpp`. -/
  | assertion (line : Nat)
  /-- An access outside an allocated array or through `nullptr`. -/
  | undefined_behaviour
  /-- A call of `std::terminate`: an exception left the destructor of the
  `std::unique_ptr` that owns the replacement buffer. -/
  | terminate
  deriving DecidableEq

/-- C++ exceptions (which a caller can catch), as opposed to aborts. -/
def Exception.is_thrown : Exception → Bool
  | .bad_alloc => true
  | .copy_assign _ => true
  | .destructor _ => true
  | .assertion _ => false
  | .undefined_behaviour => false
  | .terminate => false

/-- The fallible operations of one call.
* `alloc_throws n`: `new _Ty[n]` throws `std::bad_alloc`.
* `copy_throws i`: the copy assignment into slot `i` of the replacement buffer
  throws the exception with the given code (every slot is assigned at most once
  per call, so this fixes which of the copies of the call throw).
* `release_throws`: an element destructor throws during `delete[]`. -/
structure Env where
  alloc_throws : Nat → Bool
  copy_throws : Nat → Option Nat
  release_throws : Option Nat

/-- Nothing throws (the situation of `vector<int>` with enough memory). -/
def Env.reliable : Env := ⟨fun _ => false, fun _ => none, none⟩

/-- The data members of `ywen::vector<_Ty>`. -/
structure vector (α : Type) where
  m_size : Nat
  m_capacity : Nat
  m_vec : Option (List α)
  deriving DecidableEq

/-- Result of a call and the state of the object when the call is left. -/
structure Outcome (α : Type) where
  result : Except Exception Unit
  state : vector α

variable {α : Type}

/-- The expression `new _Ty[n]`: throws `std::bad_alloc` or yields `n`
default-initialised slots. -/
def new_array [Inhabited α] (E : Env) (n : Nat) : Except Exception (List α) :=
  if E.alloc_throws n then .error .bad_alloc else .ok (List.replicate n default)

/-- The statement `new_vec[i] = x`. -/
def assign_value (E : Env) (i : Nat) (x : α) (new_vec : List α) :
    Except Exception (List α) :=
  if i < new_vec.length then
    match E.copy_throws i with
    | some c => .error (.copy_assign c)
    | none => .ok (new_vec.set i x)
  else .error .undefined_behaviour

/-- The statement `new_vec[i] = m_vec[j]`. -/
def assign_from (E : Env) (m_vec : Option (List α)) (i j : Nat) (new_vec : List α) :
    Except Exception (List α) :=
  match m_vec with
  | none => .error .undefined_behaviour
  | some old =>
    match old[j]? with
    | none => .error .undefined_behaviour
    | some x => assign_value E i x new_vec

/-- The statement `delete[] p`: nothing happens for `nullptr`; otherwise the elements are
destroyed, which may throw. -/
def release (E : Env) (p : Option (List α)) : Except Exception Unit :=
  match p with
  | none => .ok ()
  | some buf =>
    if buf.length = 0 then .ok ()
    else
      match E.release_throws with
      | some c => .error (.destructor c)
      | none => .ok ()

/-- The destructor of the `std::unique_ptr<_Ty[]> new_vec` of lines 157, 230 and
300 while it still owns the replacement buffer of `n` slots: `delete[]` of that
array, which destroys its `n` elements. -/
def release_owned (E : Env) (n : Nat) : Except Exception Unit :=
  if n = 0 then .ok ()
  else
    match E.release_throws with
    | some c => .error (.destructor c)
    | none => .ok ()

/-- The exception `e` leaves the build phase of a function whose replacement
buffer has `n` slots; no data member has been assigned yet, so the object is in
state `s`.  A copy throws while `new_vec` owns the buffer: its destructor
releases the buffer during stack unwinding, and an exception that leaves this
destructor ends the program with `std::terminate`.  `std::bad_alloc` is thrown
before `new_vec` exists, and undefined behaviour ends the call on the spot. -/
def unwind_build (E : Env) (n : Nat) (e : Exception) (s : vector α) : Outcome α :=
  match e with
  | .copy_assign c =>
    match release_owned E n with
    | .error _ => ⟨.error .terminate, s⟩
    | .ok _ => ⟨.error (.copy_assign c), s⟩
  | other => ⟨.error other, s⟩

/-- The line of the first assertion of the list whose condition is false. -/
def first_failed : List (Bool × Nat) → Option Nat
  | [] => none
  | (cond, line) :: rest => if cond then first_failed rest else some line

/-- A run of consecutive `assert`s in state `st`: each entry is the condition of
an assertion and its line in `vector.hpp`. -/
def assert_all (checks : List (Bool × Nat)) (st : vector α) : Outcome α :=
  match first_failed checks with
  | some line => ⟨.error (.assertion line), st⟩
  | none => ⟨.ok (), st⟩

/-- The loop `for (size_t i = i0; ...; ++i) body(i)` with `n` iterations to go. -/
def for_up {σ : Type} (body : Nat → σ → Except Exception σ) :
    Nat → Nat → σ → Except Exception σ
  | 0, _, st => .ok st
  | n + 1, i, st =>
    match body i st with
    | .error e => .error e
    | .ok st1 => for_up body n (i + 1) st1

/-- The loop `for (size_t i = i0; ...; --i) body(i)` with `n` iterations to go. -/
def for_down {σ : Type} (body : Nat → σ → Except Exception σ) :
    Nat → Nat → σ → Except Exception σ
  | 0, _, st => .ok st
  | n + 1, i, st =>
    match body i st with
    | .error e => .error e
    | .ok st1 => for_down body n (i - 1) st1

/-- The default constructor `vector()`: `m_size(0), m_capacity(0), m_vec(nullptr)`. -/
def vector.ctor_default : vector α := ⟨0, 0, none⟩

/-- The loop of the list constructor: `new_vec[i] = *it; ++i;` for every
element of `init` in order. -/
def copy_init (E : Env) : List α → Nat → List α → Except Exception (List α)
  | [], _, new_vec => .ok new_vec
  | x :: rest, i, new_vec =>
    match assign_value E i x new_vec with
    | .error e => .error e
    | .ok new_vec1 => copy_init E rest (i + 1) new_vec1

/-- Lines 157-167 of the list constructor: allocate `count` slots and fill them. -/
def ctor_build [Inhabited α] (E : Env) (init : List α) : Except Exception (List α) :=
  match new_array E init.length with
  | .error e => .error e
  | .ok new_vec => copy_init E init 0 new_vec

/-- The constructor `vector(std::initializer_list<_Ty> init)`.  It has no member
initialisers, so the members start with the indeterminate values `raw`. -/
def vector.ctor_list [Inhabited α] (E : Env) (raw : vector α) (init : List α) :
    Outcome α :=
  let count := init.length
  if count = 0 then
    assert_all [(raw.m_vec.isNone, 149), (decide (0 = raw.m_size), 150),
      (decide (0 = raw.m_capacity), 151)] raw
  else
    match ctor_build E init with
    | .error e => unwind_build E count e raw
    | .ok new_vec =>
      -- std::swap(tmp_vec, m_vec); m_size = count; m_capacity = count;
      let s : vector α := ⟨count % UINT_MOD, count % UINT_MOD, some new_vec⟩
      assert_all [(s.m_vec.isSome, 175), (decide (count = s.m_size), 176),
        (decide (count = s.m_capacity), 177)] s

/-- The function `_get_new_capacity(capacity)`: `capacity * 2 + 1` in `size_t`. -/
def _get_new_capacity (capacity : Nat) : Nat := (capacity * 2 + 1) % SIZE_MOD

/-- Lines 229-252 of `insert`: allocate the replacement buffer and copy the
left part, the right part and the new value into it. -/
def insert_build [Inhabited α] (E : Env) (index : Nat) (value : α) (s : vector α) :
    Except Exception (List α) :=
  match new_array E s.m_capacity with
  | .error e => .error e
  | .ok new_vec =>
    match for_up (fun i nv => assign_from E s.m_vec i i nv) index 0 new_vec with
    | .error e => .error e
    | .ok new_vec1 =>
      match for_down (fun i nv => assign_from E s.m_vec i (i - 1) nv)
          (s.m_size - index) s.m_size new_vec1 with
      | .error e => .error e
      | .ok new_vec2 => assign_value E index value new_vec2

/-- Lines 257-274 of `insert`: adopt the replacement buffer, release the old
one, assign `m_capacity` and `m_size`, and the closing assertions. -/
def insert_commit (E : Env) (prev_size prev_capacity new_capacity new_size : Nat)
    (new_vec : List α) (s : vector α) : Outcome α :=
  -- std::swap(tmp_vec, m_vec);
  let tmp_vec := s.m_vec
  let s1 : vector α := ⟨s.m_size, s.m_capacity, some new_vec⟩
  -- delete[] tmp_vec;
  match release E tmp_vec with
  | .error e => ⟨.error e, s1⟩
  | .ok _ =>
    -- m_capacity = new_capacity; m_size = new_size;
    let s2 : vector α := ⟨new_size % UINT_MOD, new_capacity % UINT_MOD, s1.m_vec⟩
    assert_all [(s2.m_vec.isSome, 271),
      (decide ((prev_size + 1) % SIZE_MOD = s2.m_size), 272),
      (decide (s2.m_size ≤ s2.m_capacity), 273),
      (decide (prev_capacity ≤ s2.m_capacity), 274)] s2

/-- The member function `insert(index, value)`. -/
def vector.insert [Inhabited α] (E : Env) (index : Nat) (value : α) (s : vector α) :
    Outcome α :=
  if ¬ (index ≤ s.m_size) then ⟨.error (.assertion 220), s⟩
  else
    let prev_size := s.m_size
    let prev_capacity := s.m_capacity
    let new_capacity :=
      if (s.m_size + 1) % UINT_MOD > s.m_capacity then _get_new_capacity s.m_capacity
      else s.m_capacity
    let new_size := (s.m_size + 1) % UINT_MOD
    match insert_build E index value s with
    | .error e => unwind_build E s.m_capacity e s
    | .ok new_vec => insert_commit E prev_size prev_capacity new_capacity new_size new_vec s

/-- Lines 300-318 of `erase`: allocate the replacement buffer and copy every
element but the one at `index` into it. -/
def erase_build [Inhabited α] (E : Env) (index new_size : Nat) (s : vector α) :
    Except Exception (List α) :=
  match new_array E s.m_capacity with
  | .error e => .error e
  | .ok new_vec =>
    match for_up (fun i nv => assign_from E s.m_vec i i nv) index 0 new_vec with
    | .error e => .error e
    | .ok new_vec1 =>
      for_up (fun i nv => assign_from E s.m_vec i (i + 1) nv) (new_size - index) index new_vec1

/-- Lines 330-334 of `erase`: `m_size = new_size;` and the closing assertions. -/
def erase_finish (prev_size prev_capacity new_size : Nat) (s1 : vector α) : Outcome α :=
  let s2 : vector α := ⟨new_size % UINT_MOD, s1.m_capacity, s1.m_vec⟩
  assert_all [(s2.m_vec.isSome, 332), (decide (s2.m_size = prev_size - 1), 333),
    (decide (s2.m_capacity = prev_capacity), 334)] s2

/-- Lines 320-327 of `erase`: adopt the replacement buffer and release the old
one; then lines 330-334. -/
def erase_commit (E : Env) (prev_size prev_capacity new_size : Nat)
    (new_vec : List α) (s : vector α) : Outcome α :=
  -- std::swap(tmp_vec, m_vec);
  let tmp_vec := s.m_vec
  let s1 : vector α := ⟨s.m_size, s.m_capacity, some new_vec⟩
  -- delete[] tmp_vec;
  match release E tmp_vec with
  | .error e => ⟨.error e, s1⟩
  | .ok _ => erase_finish prev_size prev_capacity new_size s1

/-- The member function `erase(index)`.  The subtractions `m_size - 1` and
`prev_size - 1` are only reached with `0 < m_size`, where they do not wrap. -/
def vector.erase [Inhabited α] (E : Env) (index : Nat) (s : vector α) : Outcome α :=
  if ¬ (0 < s.m_size) then ⟨.error (.assertion 281), s⟩
  else if ¬ (index < s.m_size) then ⟨.error (.assertion 283), s⟩
  else
    let prev_size := s.m_size
    let prev_capacity := s.m_capacity
    let new_size := s.m_size - 1
    if index = s.m_size - 1 then
      erase_finish prev_size prev_capacity new_size s
    else
      match erase_build E index new_size s with
      | .error e => unwind_build E s.m_capacity e s
      | .ok new_vec => erase_commit E prev_size prev_capacity new_size new_vec s

/-- The member function `push_back(value)`: `this->insert(m_size, value)`. -/
def vector.push_back [Inhabited α] (E : Env) (value : α) (s : vector α) : Outcome α :=
  s.insert E s.m_size value

/-- The member function `pop_back()`: `this->erase(m_size - 1)`, the subtraction
in `unsigned int`. -/
def vector.pop_back [Inhabited α] (E : Env) (s : vector α) : Outcome α :=
  s.erase E ((s.m_size + UINT_MOD - 1) % UINT_MOD)

/-- The member function `size()`. -/
def vector.size (s : vector α) : Nat := s.m_size

/-- The member function `capacity()`. -/
def vector.capacity (s : vector α) : Nat := s.m_capacity

/-- The member function `empty()`. -/
def vector.empty (s : vector α) : Bool := 0 == s.m_size

/-- The member function `at(i)` (both overloads): the bounds assertion, then
`m_vec[i]`. -/
def vector.at_ (s : vector α) (i : Nat) : Except Exception α :=
  if ¬ (i < s.m_size) then .error (.assertion 370)
  else
    match s.m_vec with
    | none => .error .undefined_behaviour
    | some buf =>
      match buf[i]? with
      | none => .error .undefined_behaviour
      | some x => .ok x

/-- What `at(0)`, ..., `at(size() - 1)` return, in this order. -/
def vector.elements (s : vector α) : List (Except Exception α) :=
  (List.range s.m_size).map s.at_

/-- The live elements as a list: the first `m_size` slots of the buffer. -/
def vector.contents (s : vector α) : List α :=
  match s.m_vec with
  | none => []
  | some buf => buf.take s.m_size

/-- The documented invariant `m_size <= m_capacity`, the range of `unsigned int`
for `m_capacity`, and a buffer of exactly `m_capacity` slots (no buffer only
with capacity `0`). -/
def vector.Valid (s : vector α) : Prop :=
  s.m_size ≤ s.m_capacity ∧ s.m_capacity < UINT_MOD ∧
    match s.m_vec with
    | none => s.m_capacity = 0
    | some buf => buf.length = s.m_capacity

/-- The calls of the public interface that change a vector. -/
inductive Call (α : Type) where
  | insert (index : Nat) (value : α)
  | erase (index : Nat)
  | push_back (value : α)
  | pop_back

/-- Perform one call in environment `E`. -/
def Call.run [Inhabited α] (E : Env) : Call α → vector α → Outcome α
  | .insert index value, s => s.insert E index value
  | .erase index, s => s.erase E index
  | .push_back value, s => s.push_back E value
  | .pop_back, s => s.pop_back E

/-- Whether the program goes on after a call: the call returned, or it was left
by a C++ exception, which the caller can catch.  A failed assertion, undefined
behaviour and `std::terminate` end the program. -/
def Outcome.continues (o : Outcome α) : Bool :=
  match o.result with
  | .ok _ => true
  | .error e => e.is_thrown

/-- The outcomes of a sequence of calls on one vector object, performed one after
the other, each in its own environment, for as long as the program goes on. -/
def run_calls [Inhabited α] : List (Env × Call α) → vector α → List (Outcome α)
  | [], _ => []
  | (E, c) :: rest, s =>
    if (c.run E s).continues then c.run E s :: run_calls rest (c.run E s).state
    else [c.run E s]

/-- The loop `for (...) v.push_back(x);` over the values of `vs` in order; it is
left at the first call that does not return. -/
def push_back_all [Inhabited α] (E : Env) : List α → vector α → Outcome α
  | [], s => ⟨.ok (), s⟩
  | x :: rest, s =>
    match (s.push_back E x).result with
    | .ok _ => push_back_all E rest (s.push_back E x).state
    | .error e => ⟨.error e, (s.push_back E x).state⟩

/-- The loop `for (...) v.pop_back();` with `n` iterations; it is left at the
first call that does not return. -/
def pop_back_times [Inhabited α] (E : Env) : Nat → vector α → Outcome α
  | 0, s => ⟨.ok (), s⟩
  | n + 1, s =>
    match (s.pop_back E).result with
    | .ok _ => pop_back_times E n (s.pop_back E).state
    | .error e => ⟨.error e, (s.pop_back E).state⟩

/-- One round of `test_regular_use`: `push_back` every value of `vs`, then
`pop_back` as many times. -/
def push_pop_round [Inhabited α] (E : Env) (vs : List α) (s : vector α) : Outcome α :=
  match (push_back_all E vs s).result with
  | .ok _ => pop_back_times E vs.length (push_back_all E vs s).state
  | .error e => ⟨.error e, (push_back_all E vs s).state⟩

/-- A list of `2^32` elements, one more than `unsigned int` can count. -/
def four_gib_list : List Int := List.replicate UINT_MOD 0

/-- An environment in which the copy into slot `1` throws exception `7`. -/
def Env.copy_one_throws : Env :=
  ⟨fun _ => false, fun i => if i = 1 then some 7 else none, none⟩

/-- The non-const overload of `at(i)`: a `const_cast` of what the const overload
returns for the same object and index. -/
def vector.at_nonconst (s : vector α) (i : Nat) : Except Exception α := s.at_ i

/-- The non-const `operator[](i)`: `return this->at(i);`. -/
def vector.subscript (s : vector α) (i : Nat) : Except Exception α := s.at_nonconst i

/-- The const `operator[](i)`: `return this->at(i);`. -/
def vector.subscript_const (s : vector α) (i : Nat) : Except Exception α := s.at_ i

/-- Number of slots of the backing buffer (`0` when there is none). -/
def vector.slots (s : vector α) : Nat :=
  match s.m_vec with
  | none => 0
  | some buf => buf.length

/-- The invariant documented at the member `m_vec` (lines 129-131):
`0 == m_size && nullptr == m_vec`, or `0 < m_size && nullptr != m_vec`. -/
def vector.storage_invariant (s : vector α) : Bool :=
  (decide (0 = s.m_size) && s.m_vec.isNone) || (decide (0 < s.m_size) && s.m_vec.isSome)

/-- An environment in which every allocation, every copy and every release of
a non-empty array throws. -/
def Env.nothing_works : Env := ⟨fun _ => true, fun _ => some 1, some 2⟩

/-- An environment in which only the element destructor throws (exception `3`). -/
def Env.destructor_throws : Env := ⟨fun _ => false, fun _ => none, some 3⟩

/-- An environment in which the copy into slot `1` throws exception `7` and the
element destructor throws exception `3`. -/
def Env.copy_and_destructor_throw : Env :=
  ⟨fun _ => false, fun i => if i = 1 then some 7 else none, some 3⟩

/-- The pair `(m_size, m_capacity)` that `insert` stores at lines 268-269, from the
pair before the call: `new_size` and `new_capacity` of lines 225-227, each
narrowed to `unsigned int` by the assignment. -/
def insert_bookkeeping (p : Nat × Nat) : Nat × Nat :=
  (((p.1 + 1) % UINT_MOD) % UINT_MOD,
    (if (p.1 + 1) % UINT_MOD > p.2 then _get_new_capacity p.2 else p.2) % UINT_MOD)

/-- The pair `(m_size, m_capacity)` that the bookkeeping of `n` consecutive
`push_back` calls arrives at from the pair `(0, 0)` of a default-constructed
vector. -/
def bookkeeping_after : Nat → Nat × Nat
  | 0 => (0, 0)
  | n + 1 => insert_bookkeeping (bookkeeping_after n)

/-- An `insert(index, value)` or `push_back(value)` whose build phase (lines
229-252) has completed and handed over the replacement buffer `new_vec`: the
locals of lines 222-227 and the commit phase of lines 257-274.  The index and
the value are only used by the build phase. -/
def vector.insert_built (E : Env) (new_vec : List α) (s : vector α) : Outcome α :=
  let prev_size := s.m_size
  let prev_capacity := s.m_capacity
  let new_capacity :=
    if (s.m_size + 1) % UINT_MOD > s.m_capacity then _get_new_capacity s.m_capacity
    else s.m_capacity
  let new_size := (s.m_size + 1) % UINT_MOD
  insert_commit E prev_size prev_capacity new_capacity new_size new_vec s

/-- One step in the history of a vector object: a call of the public interface,
or an `insert` / `push_back` of which the build phase is taken to have
completed, with the replacement buffer it hands over. -/
inductive Step (α : Type) where
  | call (c : Call α)
  | built (new_vec : List α)

/-- Perform one step in environment `E`. -/
def Step.run [Inhabited α] (E : Env) : Step α → vector α → Outcome α
  | .call c, s => c.run E s
  | .built new_vec, s => s.insert_built E new_vec

/-- The outcomes of a sequence of steps on one vector object, performed one after
the other, each in its own environment, for as long as the program goes on. -/
def run_steps [Inhabited α] : List (Env × Step α) → vector α → List (Outcome α)
  | [], _ => []
  | (E, st) :: rest, s =>
    if (st.run E s).continues then st.run E s :: run_steps rest (st.run E s).state
    else [st.run E s]

/-- The loop `for (...) v.push_back(x);` in which the build phase of every call is
taken to have completed, with the replacement buffers of `steps` in order; it
is left at the first call that does not return. -/
def push_back_built_all : List (Env × List α) → vector α → Outcome α
  | [], s => ⟨.ok (), s⟩
  | (E, new_vec) :: rest, s =>
    match (s.insert_built E new_vec).result with
    | .ok _ => push_back_built_all rest (s.insert_built E new_vec).state
    | .error e => ⟨.error e, (s.insert_built E new_vec).state⟩

theorem assign_value_ok {E : Env} {i : Nat} {x : α} {nv r : List α}
    (h : assign_value E i x nv = .ok r) :
    i < nv.length ∧ E.copy_throws i = none ∧ r = nv.set i x := by
  unfold assign_value at h
  split at h
  · next hlt =>
    split at h
    · cases h
    · next hc =>
      injection h with h
      exact ⟨hlt, hc, h.symm⟩
  · cases h

theorem assign_value_eq_ok {E : Env} {i : Nat} {x : α} {nv : List α}
    (hlt : i < nv.length) (hc : E.copy_throws i = none) :
    assign_value E i x nv = .ok (nv.set i x) := by
  simp [assign_value, hlt, hc]

theorem assign_from_ok {E : Env} {mv : Option (List α)} {i j : Nat} {nv r : List α}
    (h : assign_from E mv i j nv = .ok r) :
    ∃ old x, mv = some old ∧ old[j]? = some x ∧
      i < nv.length ∧ E.copy_throws i = none ∧ r = nv.set i x := by
  unfold assign_from at h
  split at h
  · cases h
  · next old =>
    split at h
    · cases h
    · next x hx =>
      obtain ⟨h1, h2, h3⟩ := assign_value_ok h
      exact ⟨old, x, rfl, hx, h1, h2, h3⟩

theorem assign_from_eq_ok {E : Env} {old : List α} {i j : Nat} {x : α} {nv : List α}
    (hx : old[j]? = some x) (hlt : i < nv.length) (hc : E.copy_throws i = none) :
    assign_from E (some old) i j nv = .ok (nv.set i x) := by
  simp [assign_from, hx, assign_value_eq_ok hlt hc]

theorem for_up_preserve {σ : Type} {body : Nat → σ → Except Exception σ} (Q : σ → Prop)
    (hbody : ∀ i a b, body i a = .ok b → Q a → Q b) :
    ∀ (n i : Nat) (st r : σ), for_up body n i st = .ok r → Q st → Q r := by
  intro n
  induction n with
  | zero =>
    intro i st r h hq
    simp only [for_up] at h
    injection h with h
    exact h ▸ hq
  | succ n ih =>
    intro i st r h hq
    simp only [for_up] at h
    split at h
    · cases h
    · next st1 h1 => exact ih (i + 1) st1 r h (hbody i st st1 h1 hq)

theorem for_down_preserve {σ : Type} {body : Nat → σ → Except Exception σ} (Q : σ → Prop)
    (hbody : ∀ i a b, body i a = .ok b → Q a → Q b) :
    ∀ (n i : Nat) (st r : σ), for_down body n i st = .ok r → Q st → Q r := by
  intro n
  induction n with
  | zero =>
    intro i st r h hq
    simp only [for_down] at h
    injection h with h
    exact h ▸ hq
  | succ n ih =>
    intro i st r h hq
    simp only [for_down] at h
    split at h
    · cases h
    · next st1 h1 => exact ih (i - 1) st1 r h (hbody i st st1 h1 hq)

theorem for_up_body_ok {σ : Type} {body : Nat → σ → Except Exception σ} :
    ∀ (n i : Nat) (st r : σ), for_up body n i st = .ok r →
      ∀ k, k < n → ∃ a b, body (i + k) a = .ok b := by
  intro n
  induction n with
  | zero => intro i st r _ k hk; omega
  | succ n ih =>
    intro i st r h k hk
    simp only [for_up] at h
    split at h
    · cases h
    · next st1 h1 =>
      rcases Nat.eq_zero_or_pos k with hk0 | hk0
      · subst hk0; exact ⟨st, st1, h1⟩
      · obtain ⟨a, b, hab⟩ := ih (i + 1) st1 r h (k - 1) (by omega)
        have : i + 1 + (k - 1) = i + k := by omega
        rw [this] at hab
        exact ⟨a, b, hab⟩

theorem for_down_body_ok {σ : Type} {body : Nat → σ → Except Exception σ} :
    ∀ (n i : Nat) (st r : σ), for_down body n i st = .ok r →
      ∀ k, k < n → ∃ a b, body (i - k) a = .ok b := by
  intro n
  induction n with
  | zero => intro i st r _ k hk; omega
  | succ n ih =>
    intro i st r h k hk
    simp only [for_down] at h
    split at h
    · cases h
    · next st1 h1 =>
      rcases Nat.eq_zero_or_pos k with hk0 | hk0
      · subst hk0; exact ⟨st, st1, h1⟩
      · obtain ⟨a, b, hab⟩ := ih (i - 1) st1 r h (k - 1) (by omega)
        have : i - 1 - (k - 1) = i - k := by omega
        rw [this] at hab
        exact ⟨a, b, hab⟩

theorem for_down_first_ok {σ : Type} {body : Nat → σ → Except Exception σ}
    {n i : Nat} {st r : σ} (h : for_down body (n + 1) i st = .ok r) :
    ∃ st1, body i st = .ok st1 := by
  simp only [for_down] at h
  split at h
  · cases h
  · next st1 h1 => exact ⟨st1, h1⟩

theorem new_array_ok [Inhabited α] {E : Env} {n : Nat} {r : List α}
    (h : new_array E n = .ok r) :
    E.alloc_throws n = false ∧ r = List.replicate n default := by
  unfold new_array at h
  split at h
  · cases h
  · next hf =>
    injection h with h
    exact ⟨by simpa using hf, h.symm⟩

theorem assign_value_error {E : Env} {i : Nat} {x : α} {nv : List α} {e : Exception}
    (h : assign_value E i x nv = .error e) :
    e = .undefined_behaviour ∨ ∃ c, E.copy_throws i = some c ∧ e = .copy_assign c := by
  unfold assign_value at h
  split at h
  · split at h
    · next c hc =>
      injection h with h
      exact Or.inr ⟨c, hc, h.symm⟩
    · cases h
  · injection h with h
    exact Or.inl h.symm

theorem assign_from_error {E : Env} {mv : Option (List α)} {i j : Nat} {nv : List α}
    {e : Exception} (h : assign_from E mv i j nv = .error e) :
    e = .undefined_behaviour ∨ ∃ c, E.copy_throws i = some c ∧ e = .copy_assign c := by
  unfold assign_from at h
  split at h
  · injection h with h
    exact Or.inl h.symm
  · split at h
    · injection h with h
      exact Or.inl h.symm
    · exact assign_value_error h

theorem for_up_error {σ : Type} {body : Nat → σ → Except Exception σ} {e : Exception} :
    ∀ (n i : Nat) (st : σ), for_up body n i st = .error e →
      ∃ k a, k < n ∧ body (i + k) a = .error e := by
  intro n
  induction n with
  | zero => intro i st h; simp only [for_up] at h; cases h
  | succ n ih =>
    intro i st h
    simp only [for_up] at h
    split at h
    · next e1 h1 =>
      injection h with h
      subst h
      exact ⟨0, st, by omega, h1⟩
    · next st1 h1 =>
      obtain ⟨k, a, hk, hab⟩ := ih (i + 1) st1 h
      refine ⟨k + 1, a, by omega, ?_⟩
      have : i + (k + 1) = i + 1 + k := by omega
      rw [this]
      exact hab

theorem for_down_error {σ : Type} {body : Nat → σ → Except Exception σ} {e : Exception} :
    ∀ (n i : Nat) (st : σ), for_down body n i st = .error e →
      ∃ k a, k < n ∧ body (i - k) a = .error e := by
  intro n
  induction n with
  | zero => intro i st h; simp only [for_down] at h; cases h
  | succ n ih =>
    intro i st h
    simp only [for_down] at h
    split at h
    · next e1 h1 =>
      injection h with h
      subst h
      exact ⟨0, st, by omega, h1⟩
    · next st1 h1 =>
      obtain ⟨k, a, hk, hab⟩ := ih (i - 1) st1 h
      refine ⟨k + 1, a, by omega, ?_⟩
      have : i - (k + 1) = i - 1 - k := by omega
      rw [this]
      exact hab

/-- An exception leaving the build phase of `insert` is `std::bad_alloc` from the
allocation, the exception of a throwing copy into one of the slots
`0 .. m_size`, or undefined behaviour. -/
theorem insert_build_error [Inhabited α] {E : Env} {index : Nat} {value : α} {s : vector α}
    {e : Exception} (hi : index ≤ s.m_size) (h : insert_build E index value s = .error e) :
    (e = .bad_alloc ∧ E.alloc_throws s.m_capacity = true) ∨
    e = .undefined_behaviour ∨
    ∃ j c, j ≤ s.m_size ∧ E.copy_throws j = some c ∧ e = .copy_assign c := by
  unfold insert_build at h
  split at h
  · next e1 h1 =>
    injection h with h
    subst h
    unfold new_array at h1
    split at h1
    · next ht =>
      injection h1 with h1
      exact Or.inl ⟨h1.symm, ht⟩
    · cases h1
  · split at h
    · next e1 h1 =>
      injection h with h
      subst h
      obtain ⟨k, a, hk, hb⟩ := for_up_error _ _ _ h1
      rcases assign_from_error hb with hu | ⟨c, hc, he⟩
      · exact Or.inr (Or.inl hu)
      · exact Or.inr (Or.inr ⟨0 + k, c, by omega, hc, he⟩)
    · split at h
      · next e1 h1 =>
        injection h with h
        subst h
        obtain ⟨k, a, hk, hb⟩ := for_down_error _ _ _ h1
        rcases assign_from_error hb with hu | ⟨c, hc, he⟩
        · exact Or.inr (Or.inl hu)
        · exact Or.inr (Or.inr ⟨s.m_size - k, c, by omega, hc, he⟩)
      · rcases assign_value_error h with hu | ⟨c, hc, he⟩
        · exact Or.inr (Or.inl hu)
        · exact Or.inr (Or.inr ⟨index, c, hi, hc, he⟩)

/-- When the build phase of `insert` succeeds, nothing threw, the replacement
buffer has `m_capacity` slots and slot `m_size` was inside it. -/
theorem insert_build_ok [Inhabited α] {E : Env} {index : Nat} {value : α} {s : vector α}
    {r : List α} (hi : index ≤ s.m_size) (h : insert_build E index value s = .ok r) :
    E.alloc_throws s.m_capacity = false ∧ r.length = s.m_capacity ∧
    s.m_size < s.m_capacity ∧ ∀ j, j ≤ s.m_size → E.copy_throws j = none := by
  unfold insert_build at h
  split at h
  · cases h
  · next nv0 h0 =>
    obtain ⟨ha, hr0⟩ := new_array_ok h0
    have hl0 : nv0.length = s.m_capacity := by simp [hr0]
    split at h
    · cases h
    · next nv1 h1 =>
      have hlen : ∀ (i j : Nat) (a b : List α), assign_from E s.m_vec i j a = .ok b →
          a.length = s.m_capacity → b.length = s.m_capacity := by
        intro i j a b hab hq
        obtain ⟨_, _, _, _, _, _, hb⟩ := assign_from_ok hab
        simp [hb, hq]
      have hl1 : nv1.length = s.m_capacity :=
        for_up_preserve (fun l => l.length = s.m_capacity)
          (fun i a b hab hq => hlen i i a b hab hq) _ _ _ _ h1 hl0
      split at h
      · cases h
      · next nv2 h2 =>
        have hl2 : nv2.length = s.m_capacity :=
          for_down_preserve (fun l => l.length = s.m_capacity)
            (fun i a b hab hq => hlen i (i - 1) a b hab hq) _ _ _ _ h2 hl1
        obtain ⟨hlt, hc, hr⟩ := assign_value_ok h
        refine ⟨ha, by simp [hr, hl2], ?_, ?_⟩
        · rcases Nat.lt_or_ge index s.m_size with hlt2 | hge
          · obtain ⟨k, hk⟩ : ∃ k, s.m_size - index = k + 1 := ⟨s.m_size - index - 1, by omega⟩
            rw [hk] at h2
            obtain ⟨st1, hst1⟩ := for_down_first_ok h2
            obtain ⟨_, _, _, _, hb, _, _⟩ := assign_from_ok hst1
            omega
          · have : index = s.m_size := by omega
            omega
        · intro j hj
          rcases Nat.lt_trichotomy j index with hlt2 | heq | hgt
          · obtain ⟨a, b, hab⟩ := for_up_body_ok _ _ _ _ h1 j hlt2
            obtain ⟨_, _, _, _, _, hcj, _⟩ := assign_from_ok hab
            simpa using hcj
          · exact heq ▸ hc
          · obtain ⟨a, b, hab⟩ := for_down_body_ok _ _ _ _ h2 (s.m_size - j) (by omega)
            obtain ⟨_, _, _, _, _, hcj, _⟩ := assign_from_ok hab
            have : s.m_size - (s.m_size - j) = j := by omega
            rw [this] at hcj
            exact hcj

theorem first_failed_none {cs : List (Bool × Nat)} :
    first_failed cs = none ↔ ∀ c ∈ cs, c.1 = true := by
  induction cs with
  | nil => simp [first_failed]
  | cons c cs ih =>
    obtain ⟨b, l⟩ := c
    cases b <;> simp [first_failed, ih]

theorem assert_all_state (cs : List (Bool × Nat)) (st : vector α) :
    (assert_all cs st).state = st := by
  unfold assert_all
  split <;> rfl

theorem assert_all_result (cs : List (Bool × Nat)) (st : vector α) :
    (assert_all cs st).result = .ok () ∨
    ∃ l, (assert_all cs st).result = .error (.assertion l) := by
  unfold assert_all
  split
  · exact Or.inr ⟨_, rfl⟩
  · exact Or.inl rfl

theorem assert_all_ok {cs : List (Bool × Nat)} {st : vector α} :
    (assert_all cs st).result = .ok () ↔ ∀ c ∈ cs, c.1 = true := by
  rw [← first_failed_none]
  unfold assert_all
  split
  · next l hl => simp [hl]
  · next hl => simp [hl]

theorem assert_all_eq_ok {cs : List (Bool × Nat)} {st : vector α}
    (h : ∀ c ∈ cs, c.1 = true) : assert_all cs st = ⟨.ok (), st⟩ := by
  unfold assert_all
  rw [first_failed_none.mpr h]

theorem release_result (E : Env) (p : Option (List α)) :
    release E p = .ok () ∨ ∃ c, release E p = .error (.destructor c) := by
  unfold release
  split
  · exact Or.inl rfl
  · split
    · exact Or.inl rfl
    · split
      · exact Or.inr ⟨_, rfl⟩
      · exact Or.inl rfl

/-- Unwinding out of the build phase leaves the object in the state before the
call. -/
theorem unwind_build_state (E : Env) (n : Nat) (e : Exception) (s : vector α) :
    (unwind_build E n e s).state = s := by
  unfold unwind_build
  split
  · split <;> rfl
  · rfl

/-- Unwinding out of the build phase never ends in a return. -/
theorem unwind_build_not_ok (E : Env) (n : Nat) (e : Exception) (s : vector α) :
    (unwind_build E n e s).result ≠ .ok () := by
  unfold unwind_build
  split
  · split <;> exact fun h => by cases h
  · exact fun h => by cases h

/-- The release of a buffer the `unique_ptr` owns succeeds, or an element
destructor throws, which needs at least one element. -/
theorem release_owned_result (E : Env) (n : Nat) :
    release_owned E n = .ok () ∨
    ∃ c, release_owned E n = .error (.destructor c) ∧ E.release_throws = some c ∧ 0 < n := by
  unfold release_owned
  split
  · exact Or.inl rfl
  · next hn =>
    split
    · next c hc => exact Or.inr ⟨c, rfl, hc, by omega⟩
    · exact Or.inl rfl

/-- The release of a buffer the `unique_ptr` owns succeeds when no element
destructor throws or the buffer has no element. -/
theorem release_owned_eq_ok {E : Env} {n : Nat} (h : E.release_throws = none ∨ n = 0) :
    release_owned E n = .ok () := by
  unfold release_owned
  rcases h with h | h
  · simp [h]
  · simp [h]

/-- The `delete[]` of the `unique_ptr` is the `delete[]` of the statement
`delete[] tmp_vec` on a buffer of as many slots. -/
theorem release_owned_eq_release (E : Env) (buf : List α) :
    release_owned E buf.length = release E (some buf) := rfl

/-- An exception other than one of a copy leaves the build phase as it is. -/
theorem unwind_build_of_not_copy {E : Env} {n : Nat} {e : Exception} {s : vector α}
    (h : ∀ c, e ≠ .copy_assign c) : unwind_build E n e s = ⟨.error e, s⟩ := by
  unfold unwind_build
  split
  · next c => exact absurd rfl (h c)
  · rfl

/-- A copy exception leaves the function when the release of the partly filled
replacement buffer does not throw. -/
theorem unwind_build_copy {E : Env} {n : Nat} {c : Nat} {s : vector α}
    (h : release_owned E n = .ok ()) :
    unwind_build E n (.copy_assign c) s = ⟨.error (.copy_assign c), s⟩ := by
  unfold unwind_build
  simp only [h]

/-- A copy exception ends in `std::terminate` when the release of the partly
filled replacement buffer throws as well. -/
theorem unwind_build_terminate {E : Env} {n : Nat} {c d : Nat} {s : vector α}
    (h : release_owned E n = .error (.destructor d)) :
    unwind_build E n (.copy_assign c) s = ⟨.error .terminate, s⟩ := by
  unfold unwind_build
  simp only [h]

/-- Unwinding out of the build phase passes the exception on, or ends in
`std::terminate` when the exception is one of a copy and an element destructor
throws during the release of the replacement buffer. -/
theorem unwind_build_result (E : Env) (n : Nat) (e : Exception) (s : vector α) :
    unwind_build E n e s = ⟨.error e, s⟩ ∨
    (unwind_build E n e s = ⟨.error .terminate, s⟩ ∧ (∃ c, e = .copy_assign c) ∧
      (∃ d, E.release_throws = some d) ∧ 0 < n) := by
  by_cases h : ∃ c, e = .copy_assign c
  · obtain ⟨c, rfl⟩ := h
    rcases release_owned_result E n with hr | ⟨d, hr, hd, hn⟩
    · exact Or.inl (unwind_build_copy hr)
    · exact Or.inr ⟨unwind_build_terminate hr, ⟨c, rfl⟩, ⟨d, hd⟩, hn⟩
  · exact Or.inl (unwind_build_of_not_copy (fun c hc => h ⟨c, hc⟩))

/-- The outcome of `insert` when its build phase fails: the exception unwinds
the stack and no data member has been assigned. -/
theorem insert_of_build_error [Inhabited α] {E : Env} {index : Nat} {value : α}
    {s : vector α} {e : Exception} (hi : index ≤ s.m_size)
    (h : insert_build E index value s = .error e) :
    s.insert E index value = unwind_build E s.m_capacity e s := by
  unfold vector.insert
  simp [hi, h]

/-- The outcome of `insert` when its build phase succeeds is that of the commit
phase. -/
theorem insert_of_build_ok [Inhabited α] {E : Env} {index : Nat} {value : α}
    {s : vector α} {r : List α} (hi : index ≤ s.m_size)
    (h : insert_build E index value s = .ok r) :
    s.insert E index value =
      insert_commit E s.m_size s.m_capacity
        (if (s.m_size + 1) % UINT_MOD > s.m_capacity then _get_new_capacity s.m_capacity
         else s.m_capacity)
        ((s.m_size + 1) % UINT_MOD) r s := by
  unfold vector.insert
  simp [hi, h]

/-- The commit phase of `insert` returns, or ends with a destructor exception
or a failed assertion. -/
theorem insert_commit_result (E : Env) (ps pc nc ns : Nat) (r : List α) (s : vector α) :
    (insert_commit E ps pc nc ns r s).result = .ok () ∨
    (∃ c, (insert_commit E ps pc nc ns r s).result = .error (.destructor c)) ∨
    (∃ l, (insert_commit E ps pc nc ns r s).result = .error (.assertion l)) := by
  unfold insert_commit
  rcases release_result E s.m_vec with h | ⟨c, h⟩
  · simp only [h]
    rcases assert_all_result _ _ with h1 | h1
    · exact Or.inl h1
    · exact Or.inr (Or.inr h1)
  · simp only [h]
    exact Or.inr (Or.inl ⟨c, rfl⟩)

/-- An exception leaving the build phase of `erase` is `std::bad_alloc` from the
allocation, the exception of a throwing copy into one of the slots
`0 .. m_size - 2`, or undefined behaviour. -/
theorem erase_build_error [Inhabited α] {E : Env} {index : Nat} {s : vector α}
    {e : Exception} (hi : index < s.m_size)
    (h : erase_build E index (s.m_size - 1) s = .error e) :
    (e = .bad_alloc ∧ E.alloc_throws s.m_capacity = true) ∨
    e = .undefined_behaviour ∨
    ∃ j c, j < s.m_size - 1 ∧ E.copy_throws j = some c ∧ e = .copy_assign c := by
  unfold erase_build at h
  split at h
  · next e1 h1 =>
    injection h with h
    subst h
    unfold new_array at h1
    split at h1
    · next ht =>
      injection h1 with h1
      exact Or.inl ⟨h1.symm, ht⟩
    · cases h1
  · split at h
    · next e1 h1 =>
      injection h with h
      subst h
      obtain ⟨k, a, hk, hb⟩ := for_up_error _ _ _ h1
      rcases assign_from_error hb with hu | ⟨c, hc, he⟩
      · exact Or.inr (Or.inl hu)
      · exact Or.inr (Or.inr ⟨0 + k, c, by omega, hc, he⟩)
    · obtain ⟨k, a, hk, hb⟩ := for_up_error _ _ _ h
      rcases assign_from_error hb with hu | ⟨c, hc, he⟩
      · exact Or.inr (Or.inl hu)
      · exact Or.inr (Or.inr ⟨index + k, c, by omega, hc, he⟩)

/-- When the build phase of `erase` succeeds, nothing threw and the replacement
buffer has `m_capacity` slots. -/
theorem erase_build_ok [Inhabited α] {E : Env} {index : Nat} {s : vector α}
    {r : List α} (hi : index < s.m_size)
    (h : erase_build E index (s.m_size - 1) s = .ok r) :
    E.alloc_throws s.m_capacity = false ∧ r.length = s.m_capacity ∧
    ∀ j, j < s.m_size - 1 → E.copy_throws j = none := by
  unfold erase_build at h
  split at h
  · cases h
  · next nv0 h0 =>
    obtain ⟨ha, hr0⟩ := new_array_ok h0
    have hl0 : nv0.length = s.m_capacity := by simp [hr0]
    have hlen : ∀ (i j : Nat) (a b : List α), assign_from E s.m_vec i j a = .ok b →
        a.length = s.m_capacity → b.length = s.m_capacity := by
      intro i j a b hab hq
      obtain ⟨_, _, _, _, _, _, hb⟩ := assign_from_ok hab
      simp [hb, hq]
    split at h
    · cases h
    · next nv1 h1 =>
      have hl1 : nv1.length = s.m_capacity :=
        for_up_preserve (fun l => l.length = s.m_capacity)
          (fun i a b hab hq => hlen i i a b hab hq) _ _ _ _ h1 hl0
      have hl2 : r.length = s.m_capacity :=
        for_up_preserve (fun l => l.length = s.m_capacity)
          (fun i a b hab hq => hlen i (i + 1) a b hab hq) _ _ _ _ h hl1
      refine ⟨ha, hl2, ?_⟩
      intro j hj
      rcases Nat.lt_or_ge j index with hlt | hge
      · obtain ⟨a, b, hab⟩ := for_up_body_ok _ _ _ _ h1 j hlt
        obtain ⟨_, _, _, _, _, hcj, _⟩ := assign_from_ok hab
        simpa using hcj
      · obtain ⟨a, b, hab⟩ := for_up_body_ok _ _ _ _ h (j - index) (by omega)
        obtain ⟨_, _, _, _, _, hcj, _⟩ := assign_from_ok hab
        have : index + (j - index) = j := by omega
        rw [this] at hcj
        exact hcj

/-- Erasing the last element goes straight to the closing lines. -/
theorem erase_last [Inhabited α] {E : Env} {index : Nat} {s : vector α}
    (hi : index < s.m_size) (hl : index = s.m_size - 1) :
    s.erase E index = erase_finish s.m_size s.m_capacity (s.m_size - 1) s := by
  have h0 : 0 < s.m_size := by omega
  unfold vector.erase
  simp only [h0, hi, not_true_eq_false, if_false]
  rw [if_pos hl]

/-- The outcome of `erase` when its build phase fails. -/
theorem erase_of_build_error [Inhabited α] {E : Env} {index : Nat} {s : vector α}
    {e : Exception} (hi : index < s.m_size) (hl : index ≠ s.m_size - 1)
    (h : erase_build E index (s.m_size - 1) s = .error e) :
    s.erase E index = unwind_build E s.m_capacity e s := by
  have h0 : 0 < s.m_size := by omega
  unfold vector.erase
  simp only [h0, hi, not_true_eq_false, if_false]
  rw [if_neg hl]
  simp only [h]

/-- The outcome of `erase` when its build phase succeeds. -/
theorem erase_of_build_ok [Inhabited α] {E : Env} {index : Nat} {s : vector α}
    {r : List α} (hi : index < s.m_size) (hl : index ≠ s.m_size - 1)
    (h : erase_build E index (s.m_size - 1) s = .ok r) :
    s.erase E index = erase_commit E s.m_size s.m_capacity (s.m_size - 1) r s := by
  have h0 : 0 < s.m_size := by omega
  unfold vector.erase
  simp only [h0, hi, not_true_eq_false, if_false]
  rw [if_neg hl]
  simp only [h]

theorem erase_finish_result (ps pc ns : Nat) (s : vector α) :
    (erase_finish ps pc ns s).result = .ok () ∨
    ∃ l, (erase_finish ps pc ns s).result = .error (.assertion l) := by
  unfold erase_finish
  exact assert_all_result _ _

theorem erase_finish_state (ps pc ns : Nat) (s : vector α) :
    (erase_finish ps pc ns s).state = ⟨ns % UINT_MOD, s.m_capacity, s.m_vec⟩ := by
  unfold erase_finish
  exact assert_all_state _ _

theorem erase_commit_result (E : Env) (ps pc ns : Nat) (r : List α) (s : vector α) :
    (erase_commit E ps pc ns r s).result = .ok () ∨
    (∃ c, (erase_commit E ps pc ns r s).result = .error (.destructor c)) ∨
    (∃ l, (erase_commit E ps pc ns r s).result = .error (.assertion l)) := by
  unfold erase_commit
  rcases release_result E s.m_vec with h | ⟨c, h⟩
  · simp only [h]
    rcases erase_finish_result ps pc ns ⟨s.m_size, s.m_capacity, some r⟩ with h1 | h1
    · exact Or.inl h1
    · exact Or.inr (Or.inr h1)
  · simp only [h]
    exact Or.inr (Or.inl ⟨c, rfl⟩)

/-- The first loop form: `new_vec[i] = m_vec[g i]` for `i = i0, ..., i0 + n - 1`. -/
theorem for_up_copy (E : Env) (old : List α) (g : Nat → Nat) :
    ∀ (n i0 : Nat) (nv : List α),
      (∀ j, i0 ≤ j → j < i0 + n → g j < old.length) →
      i0 + n ≤ nv.length →
      (∀ j, i0 ≤ j → j < i0 + n → E.copy_throws j = none) →
      ∃ r, for_up (fun i nv => assign_from E (some old) i (g i) nv) n i0 nv = .ok r ∧
        r.length = nv.length ∧
        ∀ j, r[j]? = if i0 ≤ j ∧ j < i0 + n then old[g j]? else nv[j]? := by
  intro n
  induction n with
  | zero =>
    intro i0 nv _ _ _
    refine ⟨nv, rfl, rfl, ?_⟩
    intro j
    have : ¬ (i0 ≤ j ∧ j < i0 + 0) := by omega
    rw [if_neg this]
  | succ n ih =>
    intro i0 nv hg hlen hc
    have hg0 : g i0 < old.length := hg i0 (by omega) (by omega)
    have hx : old[g i0]? = some old[g i0] := List.getElem?_eq_getElem hg0
    have hb : assign_from E (some old) i0 (g i0) nv = .ok (nv.set i0 old[g i0]) :=
      assign_from_eq_ok hx (by omega) (hc i0 (by omega) (by omega))
    obtain ⟨r, hr, hrl, hrj⟩ := ih (i0 + 1) (nv.set i0 old[g i0])
      (fun j h1 h2 => hg j (by omega) (by omega))
      (by simp; omega)
      (fun j h1 h2 => hc j (by omega) (by omega))
    refine ⟨r, ?_, by simpa using hrl, ?_⟩
    · simp only [for_up, hb]
      exact hr
    · intro j
      rw [hrj j]
      by_cases hj : j = i0
      · subst hj
        have h1 : ¬ (j + 1 ≤ j ∧ j < j + 1 + n) := by omega
        have h2 : j ≤ j ∧ j < j + (n + 1) := by omega
        have h3 : j < nv.length := by omega
        simp [h1, h2, h3, List.getElem?_set]
      · by_cases hr2 : i0 + 1 ≤ j ∧ j < i0 + 1 + n
        · have h2 : i0 ≤ j ∧ j < i0 + (n + 1) := by omega
          simp [hr2, h2]
        · have h2 : ¬ (i0 ≤ j ∧ j < i0 + (n + 1)) := by omega
          have h3 : ¬ i0 = j := fun h => hj h.symm
          simp [hr2, h2, List.getElem?_set, h3]

/-- The second loop form: `new_vec[i] = m_vec[g i]` for `i = i0, i0 - 1, ...,
i0 - n + 1`. -/
theorem for_down_copy (E : Env) (old : List α) (g : Nat → Nat) :
    ∀ (n i0 : Nat) (nv : List α),
      n ≤ i0 →
      (∀ j, i0 - n < j → j ≤ i0 → g j < old.length) →
      (0 < n → i0 < nv.length) →
      (∀ j, i0 - n < j → j ≤ i0 → E.copy_throws j = none) →
      ∃ r, for_down (fun i nv => assign_from E (some old) i (g i) nv) n i0 nv = .ok r ∧
        r.length = nv.length ∧
        ∀ j, r[j]? = if i0 - n < j ∧ j ≤ i0 then old[g j]? else nv[j]? := by
  intro n
  induction n with
  | zero =>
    intro i0 nv _ _ _ _
    refine ⟨nv, rfl, rfl, ?_⟩
    intro j
    have : ¬ (i0 - 0 < j ∧ j ≤ i0) := by omega
    rw [if_neg this]
  | succ n ih =>
    intro i0 nv hn hg hlen hc
    have hlen0 : i0 < nv.length := hlen (by omega)
    have hg0 : g i0 < old.length := hg i0 (by omega) (by omega)
    have hx : old[g i0]? = some old[g i0] := List.getElem?_eq_getElem hg0
    have hb : assign_from E (some old) i0 (g i0) nv = .ok (nv.set i0 old[g i0]) :=
      assign_from_eq_ok hx hlen0 (hc i0 (by omega) (by omega))
    obtain ⟨r, hr, hrl, hrj⟩ := ih (i0 - 1) (nv.set i0 old[g i0])
      (by omega)
      (fun j h1 h2 => hg j (by omega) (by omega))
      (fun _ => by simp; omega)
      (fun j h1 h2 => hc j (by omega) (by omega))
    refine ⟨r, ?_, by simpa using hrl, ?_⟩
    · simp only [for_down, hb]
      exact hr
    · intro j
      rw [hrj j]
      by_cases hj : j = i0
      · subst hj
        have h1 : ¬ (j - 1 - n < j ∧ j ≤ j - 1) := by omega
        have h2 : j - (n + 1) < j ∧ j ≤ j := by omega
        simp [h1, h2, hlen0, List.getElem?_set]
      · by_cases hr2 : i0 - 1 - n < j ∧ j ≤ i0 - 1
        · have h2 : i0 - (n + 1) < j ∧ j ≤ i0 := by omega
          simp [hr2, h2]
        · have h2 : ¬ (i0 - (n + 1) < j ∧ j ≤ i0) := by omega
          have h3 : ¬ i0 = j := fun h => hj h.symm
          simp [hr2, h2, List.getElem?_set, h3]

/-- On a valid state `at(j)` returns slot `j` of the buffer for every `j < size()`. -/
theorem elements_of_valid {s : vector α} (hv : s.Valid) :
    s.elements = s.contents.map .ok := by
  obtain ⟨h1, h2, h3⟩ := hv
  unfold vector.elements vector.contents
  cases hm : s.m_vec with
  | none =>
    rw [hm] at h3
    have h0 : s.m_size = 0 := by
      have : s.m_capacity = 0 := h3
      omega
    simp [h0]
  | some buf =>
    rw [hm] at h3
    have hl : buf.length = s.m_capacity := h3
    apply List.ext_getElem?
    intro j
    by_cases hj : j < s.m_size
    · have hjb : j < buf.length := by omega
      simp [List.getElem?_range, hj, List.getElem?_take, vector.at_, hm, hjb]
    · simp [List.getElem?_range, hj, List.getElem?_take]
      omega

theorem map_ok_injective {xs ys : List α}
    (h : xs.map (Except.ok : α → Except Exception α) = ys.map .ok) : xs = ys := by
  have hinj : Function.Injective (Except.ok : α → Except Exception α) := by
    intro a b hab
    injection hab
  exact List.map_injective_iff.mpr hinj h

theorem release_eq_ok {E : Env} (hR : E.release_throws = none) (p : Option (List α)) :
    release E p = .ok () := by
  unfold release
  split
  · rfl
  · split
    · rfl
    · simp [hR]

/-- A valid non-empty vector has a buffer. -/
theorem valid_buffer {s : vector α} (hv : s.Valid) (h0 : 0 < s.m_size) :
    ∃ buf, s.m_vec = some buf ∧ buf.length = s.m_capacity := by
  obtain ⟨h1, h2, h3⟩ := hv
  cases hm : s.m_vec with
  | none =>
    rw [hm] at h3
    have : s.m_capacity = 0 := h3
    omega
  | some buf =>
    rw [hm] at h3
    exact ⟨buf, rfl, h3⟩

/-- What `erase` does on a valid state when nothing it performs throws. -/
theorem erase_ok_spec [Inhabited α] {E : Env} {s : vector α} {index : Nat}
    (hv : s.Valid) (hi : index < s.m_size)
    (hA : E.alloc_throws s.m_capacity = false)
    (hC : ∀ j, j < s.m_size - 1 → E.copy_throws j = none)
    (hR : E.release_throws = none) :
    ∃ r, s.erase E index = ⟨.ok (), ⟨s.m_size - 1, s.m_capacity, some r⟩⟩ ∧
      r.length = s.m_capacity ∧
      r.take (s.m_size - 1) = s.contents.eraseIdx index := by
  obtain ⟨buf, hm, hbl⟩ := valid_buffer hv (by omega)
  have hsz : s.m_size ≤ s.m_capacity := hv.1
  have hcap : s.m_capacity < UINT_MOD := hv.2.1
  have hmod : (s.m_size - 1) % UINT_MOD = s.m_size - 1 := Nat.mod_eq_of_lt (by omega)
  have hcont : s.contents = buf.take s.m_size := by simp [vector.contents, hm]
  by_cases hl : index = s.m_size - 1
  · refine ⟨buf, ?_, hbl, ?_⟩
    · rw [erase_last hi hl]
      unfold erase_finish
      rw [assert_all_eq_ok]
      · simp [hmod, hm]
      · intro c hc
        simp [hm, hmod] at hc
        rcases hc with rfl | rfl | rfl <;> rfl
    · rw [hcont]
      apply List.ext_getElem?
      intro j
      simp only [List.getElem?_take, List.getElem?_eraseIdx]
      by_cases h1 : j < s.m_size - 1
      · have h2 : j < index := by omega
        have h3 : j < s.m_size := by omega
        simp [h1, h2, h3]
      · have h2 : ¬ j < index := by omega
        have h3 : ¬ j + 1 < s.m_size := by omega
        simp [h1, h2, h3]
  · have hn : new_array E s.m_capacity = .ok (List.replicate s.m_capacity (default : α)) := by
      simp [new_array, hA]
    obtain ⟨r1, hr1, hl1, hj1⟩ := for_up_copy E buf (fun i => i) index 0
      (List.replicate s.m_capacity (default : α))
      (fun j _ h2 => by show j < buf.length; omega) (by simp; omega)
      (fun j _ h2 => hC j (by omega))
    obtain ⟨r2, hr2, hl2, hj2⟩ := for_up_copy E buf (fun i => i + 1)
      (s.m_size - 1 - index) index r1
      (fun j _ h2 => by show j + 1 < buf.length; omega) (by rw [hl1]; simp; omega)
      (fun j _ h2 => hC j (by omega))
    have hb : erase_build E index (s.m_size - 1) s = .ok r2 := by
      unfold erase_build
      simp only [hn, hm, hr1, hr2]
    have hlen2 : r2.length = s.m_capacity := by rw [hl2, hl1]; simp
    refine ⟨r2, ?_, hlen2, ?_⟩
    · rw [erase_of_build_ok hi hl hb]
      unfold erase_commit
      simp only [release_eq_ok hR]
      unfold erase_finish
      rw [assert_all_eq_ok]
      · simp [hmod]
      · intro c hc
        simp [hmod] at hc
        rcases hc with rfl | rfl | rfl <;> rfl
    · rw [hcont]
      apply List.ext_getElem?
      intro j
      simp only [List.getElem?_take, List.getElem?_eraseIdx]
      by_cases h1 : j < s.m_size - 1
      · rw [if_pos h1, hj2 j]
        by_cases h2 : j < index
        · have h3 : ¬ (index ≤ j ∧ j < index + (s.m_size - 1 - index)) := by omega
          have h4 : 0 ≤ j ∧ j < 0 + index := by omega
          have h5 : j < s.m_size := by omega
          rw [if_neg h3, hj1 j, if_pos h4, if_pos h2, if_pos h5]
        · have h3 : index ≤ j ∧ j < index + (s.m_size - 1 - index) := by omega
          have h5 : j + 1 < s.m_size := by omega
          rw [if_pos h3, if_neg h2, if_pos h5]
      · rw [if_neg h1]
        by_cases h2 : j < index
        · omega
        · have h5 : ¬ j + 1 < s.m_size := by omega
          rw [if_neg h2, if_neg h5]

/-- Reading a list into which a value has been spliced at position `i`. -/
theorem splice_getElem? (xs : List α) (i : Nat) (v : α) (hi : i ≤ xs.length) (j : Nat) :
    (xs.take i ++ v :: xs.drop i)[j]? =
      if j < i then xs[j]? else if j = i then some v else xs[j - 1]? := by
  have hl : (xs.take i).length = i := by simp; omega
  by_cases h1 : j < i
  · rw [if_pos h1, List.getElem?_append_left (by omega), List.getElem?_take, if_pos h1]
  · rw [if_neg h1, List.getElem?_append_right (by omega), hl]
    by_cases h2 : j = i
    · subst h2
      simp
    · rw [if_neg h2]
      obtain ⟨k, hk⟩ : ∃ k, j - i = k + 1 := ⟨j - i - 1, by omega⟩
      rw [hk, List.getElem?_cons_succ, List.getElem?_drop]
      congr 1
      omega

/-- What `insert` does on a valid state with a free slot when nothing it
performs throws. -/
theorem insert_ok_spec [Inhabited α] {E : Env} {s : vector α} {index : Nat} {value : α}
    (hv : s.Valid) (hi : index ≤ s.m_size) (hroom : s.m_size < s.m_capacity)
    (hA : E.alloc_throws s.m_capacity = false)
    (hC : ∀ j, j ≤ s.m_size → E.copy_throws j = none)
    (hR : E.release_throws = none) :
    ∃ r, s.insert E index value = ⟨.ok (), ⟨s.m_size + 1, s.m_capacity, some r⟩⟩ ∧
      r.length = s.m_capacity ∧
      r.take (s.m_size + 1) =
        s.contents.take index ++ value :: s.contents.drop index := by
  have hcap : s.m_capacity < UINT_MOD := hv.2.1
  obtain ⟨buf, hm, hbl⟩ : ∃ buf, s.m_vec = some buf ∧ buf.length = s.m_capacity := by
    have h3 := hv.2.2
    cases hm : s.m_vec with
    | none =>
      rw [hm] at h3
      have : s.m_capacity = 0 := h3
      omega
    | some buf =>
      rw [hm] at h3
      exact ⟨buf, rfl, h3⟩
  have hcont : s.contents = buf.take s.m_size := by simp [vector.contents, hm]
  have hn : new_array E s.m_capacity = .ok (List.replicate s.m_capacity (default : α)) := by
    simp [new_array, hA]
  obtain ⟨r1, hr1, hl1, hj1⟩ := for_up_copy E buf (fun i => i) index 0
    (List.replicate s.m_capacity (default : α))
    (fun j _ h2 => by show j < buf.length; omega) (by simp; omega)
    (fun j _ h2 => hC j (by omega))
  obtain ⟨r2, hr2, hl2, hj2⟩ := for_down_copy E buf (fun i => i - 1)
    (s.m_size - index) s.m_size r1 (by omega)
    (fun j h1 h2 => by show j - 1 < buf.length; omega)
    (fun _ => by rw [hl1]; simp; omega)
    (fun j _ h2 => hC j h2)
  have hlen2 : r2.length = s.m_capacity := by rw [hl2, hl1]; simp
  have hb : insert_build E index value s = .ok (r2.set index value) := by
    unfold insert_build
    simp only [hn, hm, hr1, hr2]
    exact assign_value_eq_ok (by omega) (hC index hi)
  have hU : UINT_MOD = 4294967296 := rfl
  have hS : SIZE_MOD = 18446744073709551616 := rfl
  have hmod1 : (s.m_size + 1) % UINT_MOD = s.m_size + 1 := Nat.mod_eq_of_lt (by omega)
  have hmod2 : s.m_capacity % UINT_MOD = s.m_capacity := Nat.mod_eq_of_lt hcap
  have hmod3 : (s.m_size + 1) % SIZE_MOD = s.m_size + 1 := Nat.mod_eq_of_lt (by omega)
  have hng : ¬ (s.m_size + 1 > s.m_capacity) := by omega
  refine ⟨r2.set index value, ?_, by simp [hlen2], ?_⟩
  · rw [insert_of_build_ok hi hb]
    unfold insert_commit
    simp only [release_eq_ok hR, hmod1, if_neg hng, hmod2]
    rw [assert_all_eq_ok]
    intro c hc
    simp [hmod3] at hc
    rcases hc with rfl | rfl | rfl | rfl
    · rfl
    · rfl
    · simp; omega
    · simp
  · rw [hcont]
    apply List.ext_getElem?
    intro j
    rw [splice_getElem? _ _ _ (by simp; omega)]
    simp only [List.getElem?_take, List.getElem?_set]
    by_cases h0 : j < s.m_size + 1
    · rw [if_pos h0]
      by_cases h1 : j < index
      · have h2 : ¬ index = j := by omega
        have h3 : ¬ (s.m_size - (s.m_size - index) < j ∧ j ≤ s.m_size) := by omega
        have h4 : 0 ≤ j ∧ j < 0 + index := by omega
        have h5 : j < s.m_size := by omega
        rw [if_neg h2, hj2 j, if_neg h3, hj1 j, if_pos h4, if_pos h1, if_pos h5]
      · rw [if_neg h1]
        by_cases h2 : j = index
        · subst h2
          have h3 : j < r2.length := by omega
          simp [h3]
        · have h2' : ¬ index = j := fun h => h2 h.symm
          have h3 : s.m_size - (s.m_size - index) < j ∧ j ≤ s.m_size := by omega
          have h5 : j - 1 < s.m_size := by omega
          rw [if_neg h2', hj2 j, if_pos h3, if_neg h2, if_pos h5]
    · rw [if_neg h0]
      have h1 : ¬ j < index := by omega
      have h2 : ¬ j = index := by omega
      have h5 : ¬ j - 1 < s.m_size := by omega
      rw [if_neg h1, if_neg h2, if_neg h5]

/-- An `insert` that returns found a free slot: `m_size < m_capacity` held before
the call, because slot `m_size` of a replacement buffer of `m_capacity` slots is
written. -/
theorem insert_ok_room [Inhabited α] {E : Env} {s : vector α} {index : Nat} {value : α}
    (h : (s.insert E index value).result = .ok ()) :
    index ≤ s.m_size ∧ s.m_size < s.m_capacity := by
  by_cases hi : index ≤ s.m_size
  · refine ⟨hi, ?_⟩
    cases hb : insert_build E index value s with
    | error e =>
      rw [insert_of_build_error hi hb] at h
      exact absurd h (unwind_build_not_ok _ _ _ _)
    | ok r => exact (insert_build_ok hi hb).2.2.1
  · unfold vector.insert at h
    rw [if_pos hi] at h
    cases h

/-- With nothing throwing, `insert` into a vector without a free slot runs into
undefined behaviour before any data member is assigned. -/
theorem insert_full_undefined [Inhabited α] {s : vector α} {index : Nat} {value : α}
    (hi : index ≤ s.m_size) (hfull : s.m_capacity ≤ s.m_size) :
    s.insert Env.reliable index value = ⟨.error .undefined_behaviour, s⟩ := by
  cases hb : insert_build Env.reliable index value s with
  | error e =>
    rw [insert_of_build_error hi hb]
    rcases insert_build_error hi hb with ⟨_, ha⟩ | hu | ⟨j, c, _, hc, _⟩
    · cases ha
    · rw [hu]
      rfl
    · cases hc
  | ok r =>
    have := (insert_build_ok hi hb).2.2.1
    omega

/-- The invariant of the reachable states: `Valid`, and no buffer exactly when
the capacity is `0`. -/
theorem insert_state_inv [Inhabited α] (E : Env) (s : vector α) (index : Nat) (value : α)
    (hv : s.Valid) (hn : s.m_capacity = 0 ↔ s.m_vec = none) :
    (s.insert E index value).state.Valid ∧
    ((s.insert E index value).state.m_capacity = 0 ↔
      (s.insert E index value).state.m_vec = none) := by
  by_cases hi : index ≤ s.m_size
  · cases hb : insert_build E index value s with
    | error e =>
      rw [insert_of_build_error hi hb, unwind_build_state]
      exact ⟨hv, hn⟩
    | ok r =>
      obtain ⟨_, hrl, hroom, _⟩ := insert_build_ok hi hb
      have hcap : s.m_capacity < UINT_MOD := hv.2.1
      have hU : UINT_MOD = 4294967296 := rfl
      have hmod1 : (s.m_size + 1) % UINT_MOD = s.m_size + 1 := Nat.mod_eq_of_lt (by omega)
      have hmod2 : s.m_capacity % UINT_MOD = s.m_capacity := Nat.mod_eq_of_lt hcap
      have hng : ¬ (s.m_size + 1 > s.m_capacity) := by omega
      rw [insert_of_build_ok hi hb]
      unfold insert_commit
      rcases release_result E s.m_vec with h | ⟨c, h⟩
      · simp only [h, assert_all_state, hmod1, if_neg hng, hmod2]
        refine ⟨⟨?_, hcap, hrl⟩, ?_⟩
        · show s.m_size + 1 ≤ s.m_capacity
          omega
        · constructor
          · intro h0
            have : s.m_capacity = 0 := h0
            omega
          · intro h0
            cases h0
      · simp only [h]
        refine ⟨⟨hv.1, hcap, hrl⟩, ?_⟩
        constructor
        · intro h0
          have : s.m_capacity = 0 := h0
          omega
        · intro h0
          cases h0
  · unfold vector.insert
    rw [if_pos hi]
    exact ⟨hv, hn⟩

theorem erase_state_inv [Inhabited α] (E : Env) (s : vector α) (index : Nat)
    (hv : s.Valid) (hn : s.m_capacity = 0 ↔ s.m_vec = none) :
    (s.erase E index).state.Valid ∧
    ((s.erase E index).state.m_capacity = 0 ↔ (s.erase E index).state.m_vec = none) := by
  have hcap : s.m_capacity < UINT_MOD := hv.2.1
  have hsz : s.m_size ≤ s.m_capacity := hv.1
  by_cases hi : index < s.m_size
  · have hmod : (s.m_size - 1) % UINT_MOD = s.m_size - 1 := Nat.mod_eq_of_lt (by omega)
    by_cases hl : index = s.m_size - 1
    · rw [erase_last hi hl, erase_finish_state, hmod]
      refine ⟨⟨?_, hcap, hv.2.2⟩, hn⟩
      show s.m_size - 1 ≤ s.m_capacity
      omega
    · cases hb : erase_build E index (s.m_size - 1) s with
      | error e =>
        rw [erase_of_build_error hi hl hb, unwind_build_state]
        exact ⟨hv, hn⟩
      | ok r =>
        obtain ⟨_, hrl, _⟩ := erase_build_ok hi hb
        have hnn : (s.m_capacity = 0 ↔ some r = none) := by
          constructor
          · intro h0
            omega
          · intro h0
            cases h0
        rw [erase_of_build_ok hi hl hb]
        unfold erase_commit
        rcases release_result E s.m_vec with h | ⟨c, h⟩
        · simp only [h, erase_finish_state, hmod]
          refine ⟨⟨?_, hcap, hrl⟩, hnn⟩
          show s.m_size - 1 ≤ s.m_capacity
          omega
        · simp only [h]
          exact ⟨⟨hsz, hcap, hrl⟩, hnn⟩
  · unfold vector.erase
    by_cases h0 : 0 < s.m_size
    · simp only [h0, not_true_eq_false, if_false, hi, not_false_eq_true, if_true]
      exact ⟨hv, hn⟩
    · simp only [h0, not_false_eq_true, if_true]
      exact ⟨hv, hn⟩

theorem call_state_inv [Inhabited α] (E : Env) (c : Call α) (s : vector α)
    (hv : s.Valid) (hn : s.m_capacity = 0 ↔ s.m_vec = none) :
    (c.run E s).state.Valid ∧
    ((c.run E s).state.m_capacity = 0 ↔ (c.run E s).state.m_vec = none) := by
  cases c with
  | insert index value => exact insert_state_inv E s index value hv hn
  | erase index => exact erase_state_inv E s index hv hn
  | push_back value => exact insert_state_inv E s s.m_size value hv hn
  | pop_back => exact erase_state_inv E s _ hv hn

theorem copy_init_length {E : Env} :
    ∀ (xs : List α) (i : Nat) (nv r : List α),
      copy_init E xs i nv = .ok r → r.length = nv.length := by
  intro xs
  induction xs with
  | nil =>
    intro i nv r h
    simp only [copy_init] at h
    injection h with h
    rw [h]
  | cons x rest ih =>
    intro i nv r h
    simp only [copy_init] at h
    split at h
    · cases h
    · next nv1 h1 =>
      obtain ⟨_, _, hset⟩ := assign_value_ok h1
      rw [ih _ _ _ h, hset]
      simp

theorem ctor_build_length [Inhabited α] {E : Env} {init r : List α}
    (h : ctor_build E init = .ok r) : r.length = init.length := by
  unfold ctor_build at h
  split at h
  · cases h
  · next nv h0 =>
    obtain ⟨_, hr0⟩ := new_array_ok h0
    rw [copy_init_length _ _ _ _ h, hr0]
    simp

theorem ctor_list_inv [Inhabited α] (E : Env) (raw : vector α) (init : List α)
    (h : (vector.ctor_list E raw init).result = .ok ()) :
    (vector.ctor_list E raw init).state.Valid ∧
    ((vector.ctor_list E raw init).state.m_capacity = 0 ↔
      (vector.ctor_list E raw init).state.m_vec = none) := by
  have hU : UINT_MOD = 4294967296 := rfl
  unfold vector.ctor_list at h ⊢
  by_cases hc : init.length = 0
  · simp only [hc, if_true] at h ⊢
    rw [assert_all_state]
    have := assert_all_ok.mp h
    simp at this
    obtain ⟨h1, h2, h3⟩ := this
    refine ⟨⟨by omega, by omega, ?_⟩, ?_⟩
    · rw [h1]
      exact h3.symm
    · simp [h1, ← h3]
  · simp only [hc, if_false] at h ⊢
    cases hb : ctor_build E init with
    | error e =>
      simp only [hb] at h
      exact absurd h (unwind_build_not_ok _ _ _ _)
    | ok r =>
      simp only [hb] at h ⊢
      rw [assert_all_state]
      have := assert_all_ok.mp h
      simp at this
      have hlen := ctor_build_length hb
      refine ⟨⟨Nat.le_refl _, Nat.mod_lt _ (by omega), ?_⟩, ?_⟩
      · show r.length = init.length % UINT_MOD
        omega
      · constructor
        · intro h0
          have : init.length % UINT_MOD = 0 := h0
          omega
        · intro h0
          cases h0

/-- Every state met while a sequence of calls runs from a valid state with
"no buffer exactly at capacity `0`" has these two properties again. -/
theorem run_calls_inv [Inhabited α] :
    ∀ (calls : List (Env × Call α)) (s : vector α),
      s.Valid → (s.m_capacity = 0 ↔ s.m_vec = none) →
      ∀ o, o ∈ run_calls calls s →
        o.state.Valid ∧ (o.state.m_capacity = 0 ↔ o.state.m_vec = none) := by
  intro calls
  induction calls with
  | nil =>
    intro s _ _ o ho
    simp [run_calls] at ho
  | cons ec rest ih =>
    obtain ⟨E, c⟩ := ec
    intro s hv hn o ho
    have hstep := call_state_inv E c s hv hn
    simp only [run_calls] at ho
    split at ho
    · rcases List.mem_cons.mp ho with h | h
      · rw [h]
        exact hstep
      · exact ih _ hstep.1 hstep.2 o h
    · rw [List.mem_singleton.mp ho]
      exact hstep

/-- Both constructors establish the invariant. -/
theorem start_inv [Inhabited α] {s0 : vector α}
    (hstart : s0 = vector.ctor_default ∨
      ∃ E raw init, (vector.ctor_list E raw init).result = .ok () ∧
        (vector.ctor_list E raw init).state = s0) :
    s0.Valid ∧ (s0.m_capacity = 0 ↔ s0.m_vec = none) := by
  rcases hstart with h | ⟨E, raw, init, h1, h2⟩
  · subst h
    refine ⟨⟨Nat.le_refl _, ?_, rfl⟩, ?_⟩
    · show 0 < 4294967296
      omega
    · simp [vector.ctor_default]
  · rw [← h2]
    exact ctor_list_inv E raw init h1

/-- The loop of the list constructor fills the slots `i, i + 1, ...` with the
elements of the list, in order. -/
theorem copy_init_spec (E : Env) :
    ∀ (xs : List α) (i : Nat) (nv : List α),
      i + xs.length ≤ nv.length →
      (∀ j, i ≤ j → j < i + xs.length → E.copy_throws j = none) →
      ∃ r, copy_init E xs i nv = .ok r ∧ r.length = nv.length ∧
        ∀ j, r[j]? = if i ≤ j ∧ j < i + xs.length then xs[j - i]? else nv[j]? := by
  intro xs
  induction xs with
  | nil =>
    intro i nv _ _
    refine ⟨nv, rfl, rfl, ?_⟩
    intro j
    have : ¬ (i ≤ j ∧ j < i + ([] : List α).length) := by simp
    rw [if_neg this]
  | cons x rest ih =>
    intro i nv hlen hc
    have hl : (x :: rest).length = rest.length + 1 := rfl
    have hb : assign_value E i x nv = .ok (nv.set i x) :=
      assign_value_eq_ok (by omega) (hc i (by omega) (by omega))
    obtain ⟨r, hr, hrl, hrj⟩ := ih (i + 1) (nv.set i x) (by simp; omega)
      (fun j h1 h2 => hc j (by omega) (by omega))
    refine ⟨r, ?_, by simpa using hrl, ?_⟩
    · simp only [copy_init, hb]
      exact hr
    · intro j
      rw [hrj j]
      by_cases hj : j = i
      · subst hj
        have h1 : ¬ (j + 1 ≤ j ∧ j < j + 1 + rest.length) := by omega
        have h2 : j ≤ j ∧ j < j + (x :: rest).length := by omega
        have h3 : j < nv.length := by omega
        simp [h1, h2, h3, List.getElem?_set]
      · by_cases hr2 : i + 1 ≤ j ∧ j < i + 1 + rest.length
        · have h2 : i ≤ j ∧ j < i + (x :: rest).length := by omega
          obtain ⟨k, hk⟩ : ∃ k, j - i = k + 1 := ⟨j - i - 1, by omega⟩
          have hk2 : j - (i + 1) = k := by omega
          rw [if_pos hr2, if_pos h2, hk, hk2, List.getElem?_cons_succ]
        · have h2 : ¬ (i ≤ j ∧ j < i + (x :: rest).length) := by omega
          have h3 : ¬ i = j := fun h => hj h.symm
          rw [if_neg hr2, if_neg h2, List.getElem?_set, if_neg h3]

/-- With nothing throwing, the build phase of the list constructor yields a
buffer that holds exactly the elements of the list. -/
theorem ctor_build_reliable [Inhabited α] (init : List α) :
    ctor_build Env.reliable init = .ok init := by
  obtain ⟨r, hr, hrl, hrj⟩ := copy_init_spec Env.reliable init 0
    (List.replicate init.length (default : α)) (by simp) (fun _ _ _ => rfl)
  have : r = init := by
    apply List.ext_getElem?
    intro j
    rw [hrj j]
    by_cases h : 0 ≤ j ∧ j < 0 + init.length
    · rw [if_pos h]
      rfl
    · rw [if_neg h]
      have h1 : init.length ≤ j := by omega
      rw [List.getElem?_eq_none (by simpa using h1), List.getElem?_eq_none h1]
  subst this
  unfold ctor_build new_array
  simp only [Env.reliable, Bool.false_eq_true, if_false]
  exact hr

theorem for_up_error_inv {σ : Type} {body : Nat → σ → Except Exception σ} {e : Exception}
    (Q : σ → Prop) (hbody : ∀ i a b, body i a = .ok b → Q a → Q b) :
    ∀ (n i : Nat) (st : σ), Q st → for_up body n i st = .error e →
      ∃ k a, k < n ∧ Q a ∧ body (i + k) a = .error e := by
  intro n
  induction n with
  | zero => intro i st _ h; simp only [for_up] at h; cases h
  | succ n ih =>
    intro i st hq h
    simp only [for_up] at h
    split at h
    · next e1 h1 =>
      injection h with h
      subst h
      exact ⟨0, st, by omega, hq, h1⟩
    · next st1 h1 =>
      obtain ⟨k, a, hk, hqa, hab⟩ := ih (i + 1) st1 (hbody i st st1 h1 hq) h
      refine ⟨k + 1, a, by omega, hqa, ?_⟩
      have : i + (k + 1) = i + 1 + k := by omega
      rw [this]
      exact hab

theorem for_down_error_inv {σ : Type} {body : Nat → σ → Except Exception σ} {e : Exception}
    (Q : σ → Prop) (hbody : ∀ i a b, body i a = .ok b → Q a → Q b) :
    ∀ (n i : Nat) (st : σ), Q st → for_down body n i st = .error e →
      ∃ k a, k < n ∧ Q a ∧ body (i - k) a = .error e := by
  intro n
  induction n with
  | zero => intro i st _ h; simp only [for_down] at h; cases h
  | succ n ih =>
    intro i st hq h
    simp only [for_down] at h
    split at h
    · next e1 h1 =>
      injection h with h
      subst h
      exact ⟨0, st, by omega, hq, h1⟩
    · next st1 h1 =>
      obtain ⟨k, a, hk, hqa, hab⟩ := ih (i - 1) st1 (hbody i st st1 h1 hq) h
      refine ⟨k + 1, a, by omega, hqa, ?_⟩
      have : i - (k + 1) = i - 1 - k := by omega
      rw [this]
      exact hab

/-- An assignment `new_vec[i] = m_vec[j]` with both indices inside their arrays
can only fail by a throwing copy. -/
theorem assign_from_in_bounds {E : Env} {old : List α} {i j : Nat} {nv : List α}
    (hj : j < old.length) (hi : i < nv.length) :
    assign_from E (some old) i j nv ≠ .error .undefined_behaviour := by
  intro h
  have hx : old[j]? = some old[j] := List.getElem?_eq_getElem hj
  unfold assign_from assign_value at h
  simp only [hx, hi, if_true] at h
  split at h <;> cases h

theorem assign_from_length {E : Env} {mv : Option (List α)} {n : Nat} :
    ∀ (i j : Nat) (a b : List α), assign_from E mv i j a = .ok b →
      a.length = n → b.length = n := by
  intro i j a b hab hq
  obtain ⟨_, _, _, _, _, _, hb⟩ := assign_from_ok hab
  simp [hb, hq]

/-- On a valid state with a free slot the build phase of `insert` stays inside
both arrays. -/
theorem insert_build_in_bounds [Inhabited α] {E : Env} {index : Nat} {value : α}
    {s : vector α} (hv : s.Valid) (hi : index ≤ s.m_size) (hroom : s.m_size < s.m_capacity) :
    insert_build E index value s ≠ .error .undefined_behaviour := by
  intro h
  obtain ⟨buf, hm, hbl⟩ : ∃ buf, s.m_vec = some buf ∧ buf.length = s.m_capacity := by
    have h3 := hv.2.2
    cases hm : s.m_vec with
    | none =>
      rw [hm] at h3
      have : s.m_capacity = 0 := h3
      omega
    | some buf =>
      rw [hm] at h3
      exact ⟨buf, rfl, h3⟩
  unfold insert_build at h
  rw [hm] at h
  split at h
  · next e1 h1 =>
    unfold new_array at h1
    split at h1
    · injection h1 with h1
      injection h with h
      rw [← h1] at h
      cases h
    · cases h1
  · next nv0 h0 =>
    have hl0 : nv0.length = s.m_capacity := by
      rw [(new_array_ok h0).2]
      simp
    split at h
    · next e1 h1 =>
      injection h with h
      subst h
      obtain ⟨k, a, hk, hqa, hb⟩ := for_up_error_inv (fun l => l.length = s.m_capacity)
        (fun i a b hab hq => assign_from_length i i a b hab hq) _ _ _ hl0 h1
      have hqa2 : a.length = s.m_capacity := hqa
      exact assign_from_in_bounds (by omega) (by omega) hb
    · next nv1 h1 =>
      have hl1 : nv1.length = s.m_capacity :=
        for_up_preserve (fun l => l.length = s.m_capacity)
          (fun i a b hab hq => assign_from_length i i a b hab hq) _ _ _ _ h1 hl0
      split at h
      · next e1 h2 =>
        injection h with h
        subst h
        obtain ⟨k, a, hk, hqa, hb⟩ := for_down_error_inv (fun l => l.length = s.m_capacity)
          (fun i a b hab hq => assign_from_length i (i - 1) a b hab hq) _ _ _ hl1 h2
        have hqa2 : a.length = s.m_capacity := hqa
        exact assign_from_in_bounds (by omega) (by omega) hb
      · next nv2 h2 =>
        have hl2 : nv2.length = s.m_capacity :=
          for_down_preserve (fun l => l.length = s.m_capacity)
            (fun i a b hab hq => assign_from_length i (i - 1) a b hab hq) _ _ _ _ h2 hl1
        unfold assign_value at h
        have : index < nv2.length := by omega
        simp only [this, if_true] at h
        split at h <;> cases h

/-- On a valid state the build phase of `erase` stays inside both arrays. -/
theorem erase_build_in_bounds [Inhabited α] {E : Env} {index : Nat} {s : vector α}
    (hv : s.Valid) (hi : index < s.m_size) :
    erase_build E index (s.m_size - 1) s ≠ .error .undefined_behaviour := by
  intro h
  obtain ⟨buf, hm, hbl⟩ := valid_buffer hv (by omega)
  have hsz : s.m_size ≤ s.m_capacity := hv.1
  unfold erase_build at h
  rw [hm] at h
  split at h
  · next e1 h1 =>
    unfold new_array at h1
    split at h1
    · injection h1 with h1
      injection h with h
      rw [← h1] at h
      cases h
    · cases h1
  · next nv0 h0 =>
    have hl0 : nv0.length = s.m_capacity := by
      rw [(new_array_ok h0).2]
      simp
    split at h
    · next e1 h1 =>
      injection h with h
      subst h
      obtain ⟨k, a, hk, hqa, hb⟩ := for_up_error_inv (fun l => l.length = s.m_capacity)
        (fun i a b hab hq => assign_from_length i i a b hab hq) _ _ _ hl0 h1
      have hqa2 : a.length = s.m_capacity := hqa
      exact assign_from_in_bounds (by omega) (by omega) hb
    · next nv1 h1 =>
      have hl1 : nv1.length = s.m_capacity :=
        for_up_preserve (fun l => l.length = s.m_capacity)
          (fun i a b hab hq => assign_from_length i i a b hab hq) _ _ _ _ h1 hl0
      obtain ⟨k, a, hk, hqa, hb⟩ := for_up_error_inv (fun l => l.length = s.m_capacity)
        (fun i a b hab hq => assign_from_length i (i + 1) a b hab hq) _ _ _ hl1 h
      have hqa2 : a.length = s.m_capacity := hqa
      exact assign_from_in_bounds (by omega) (by omega) hb

/-- A list whose length does not fit `unsigned int` is rejected by the assertion
of line 176, after `m_size` has received the truncated length. -/
theorem ctor_list_truncated [Inhabited α] (raw : vector α) (init : List α)
    (hc : ¬ init.length = 0) (hmod : ¬ init.length = init.length % UINT_MOD) :
    (vector.ctor_list Env.reliable raw init).result = .error (.assertion 176) ∧
    (vector.ctor_list Env.reliable raw init).state.size = init.length % UINT_MOD := by
  have hd : decide (init.length = init.length % UINT_MOD) = false := by
    simpa using hmod
  unfold vector.ctor_list
  simp only [hc, if_false, ctor_build_reliable]
  constructor
  · simp only [assert_all, first_failed, Option.isSome_some, if_true, hd]
    rfl
  · rw [assert_all_state]
    rfl

/-- The capacity member is never assigned by `erase`. -/
theorem erase_state_capacity [Inhabited α] (E : Env) (s : vector α) (index : Nat) :
    (s.erase E index).state.m_capacity = s.m_capacity := by
  by_cases hi : index < s.m_size
  · by_cases hl : index = s.m_size - 1
    · rw [erase_last hi hl, erase_finish_state]
    · cases hb : erase_build E index (s.m_size - 1) s with
      | error e => rw [erase_of_build_error hi hl hb, unwind_build_state]
      | ok r =>
        rw [erase_of_build_ok hi hl hb]
        unfold erase_commit
        rcases release_result E s.m_vec with h | ⟨c, h⟩
        · simp only [h, erase_finish_state]
        · simp only [h]
  · unfold vector.erase
    by_cases h0 : 0 < s.m_size
    · simp only [h0, not_true_eq_false, if_false, hi, not_false_eq_true, if_true]
    · simp only [h0, not_false_eq_true, if_true]

/-! ## What the operations do while no growth is needed -/

/-- The live elements of a valid vector are `m_size` many. -/
theorem contents_length {s : vector α} (hv : s.Valid) : s.contents.length = s.m_size := by
  obtain ⟨h1, _, h3⟩ := hv
  unfold vector.contents
  cases hm : s.m_vec with
  | none =>
    rw [hm] at h3
    have : s.m_capacity = 0 := h3
    simp
    omega
  | some buf =>
    rw [hm] at h3
    have : buf.length = s.m_capacity := h3
    simp
    omega

/-- With a free slot and nothing throwing, `insert(i, v)` returns, `size()` grows
by one, `capacity()` stays, and `at(0), ..., at(n)` return the old elements with
`v` spliced in at position `i`. -/
theorem insert_splices_with_free_slot [Inhabited α] (s : vector α) (xs : List α)
    (i : Nat) (v : α) (hv : s.Valid) (hroom : s.m_size < s.m_capacity)
    (hxs : s.elements = xs.map .ok) (hi : i ≤ xs.length) :
    (s.insert Env.reliable i v).result = .ok () ∧
    (s.insert Env.reliable i v).state.size = xs.length + 1 ∧
    (s.insert Env.reliable i v).state.capacity = s.capacity ∧
    (s.insert Env.reliable i v).state.elements = (xs.take i ++ v :: xs.drop i).map .ok := by
  have hc : s.contents = xs := map_ok_injective ((elements_of_valid hv).symm.trans hxs)
  have hn : s.m_size = xs.length := by
    rw [← hc]
    exact (contents_length hv).symm
  obtain ⟨r, he, hrl, hrc⟩ := @insert_ok_spec α _ Env.reliable s i v hv (by omega) hroom
    rfl (fun _ _ => rfl) rfl
  have hv2 : (⟨s.m_size + 1, s.m_capacity, some r⟩ : vector α).Valid :=
    ⟨hroom, hv.2.1, hrl⟩
  rw [he]
  refine ⟨rfl, ?_, rfl, ?_⟩
  · show s.m_size + 1 = xs.length + 1
    rw [hn]
  · rw [elements_of_valid hv2]
    show List.map Except.ok (r.take (s.m_size + 1)) = _
    rw [hrc, hc]

/-- With enough free slots and nothing throwing, the `push_back` loop returns and
appends the values. -/
theorem push_back_all_with_free_slots [Inhabited α] :
    ∀ (vs : List α) (s : vector α), s.Valid → s.m_size + vs.length ≤ s.m_capacity →
      ∃ s1, push_back_all Env.reliable vs s = ⟨.ok (), s1⟩ ∧ s1.Valid ∧
        s1.m_size = s.m_size + vs.length ∧ s1.m_capacity = s.m_capacity ∧
        s1.contents = s.contents ++ vs := by
  intro vs
  induction vs with
  | nil =>
    intro s hv _
    exact ⟨s, rfl, hv, rfl, rfl, by simp⟩
  | cons x rest ih =>
    intro s hv hlen
    have hl : (x :: rest).length = rest.length + 1 := rfl
    obtain ⟨r1, he, hrl, hrc⟩ := @insert_ok_spec α _ Env.reliable s s.m_size x hv
      (Nat.le_refl _) (by omega) rfl (fun _ _ => rfl) rfl
    have hv1 : (⟨s.m_size + 1, s.m_capacity, some r1⟩ : vector α).Valid :=
      ⟨by show s.m_size + 1 ≤ s.m_capacity; omega, hv.2.1, hrl⟩
    obtain ⟨s1, hr, hv2, hsz, hcap, hcont⟩ := ih ⟨s.m_size + 1, s.m_capacity, some r1⟩ hv1
      (by show s.m_size + 1 + rest.length ≤ s.m_capacity; omega)
    have hpb : s.push_back Env.reliable x =
        ⟨.ok (), ⟨s.m_size + 1, s.m_capacity, some r1⟩⟩ := he
    have hcl := contents_length hv
    have h1 : (⟨s.m_size + 1, s.m_capacity, some r1⟩ : vector α).contents =
        s.contents ++ [x] := by
      show r1.take (s.m_size + 1) = _
      rw [hrc, ← hcl]
      simp
    refine ⟨s1, ?_, hv2, ?_, hcap, ?_⟩
    · simp only [push_back_all, hpb]
      exact hr
    · rw [hsz, hl]
      show s.m_size + 1 + rest.length = s.m_size + (rest.length + 1)
      omega
    · rw [hcont, h1]
      simp

/-- With nothing throwing, `n` calls of `pop_back` on a valid vector with at
least `n` elements return and remove the last `n` elements. -/
theorem pop_back_times_spec [Inhabited α] :
    ∀ (n : Nat) (s : vector α), s.Valid → n ≤ s.m_size →
      ∃ s1, pop_back_times Env.reliable n s = ⟨.ok (), s1⟩ ∧ s1.Valid ∧
        s1.m_size = s.m_size - n ∧ s1.m_capacity = s.m_capacity ∧
        s1.contents = s.contents.take (s.m_size - n) := by
  intro n
  induction n with
  | zero =>
    intro s hv _
    refine ⟨s, rfl, hv, rfl, rfl, ?_⟩
    have := contents_length hv
    simp [← this]
  | succ n ih =>
    intro s hv hn
    have hU : UINT_MOD = 4294967296 := rfl
    have hsz : s.m_size ≤ s.m_capacity := hv.1
    have hcap : s.m_capacity < UINT_MOD := hv.2.1
    have hidx : (s.m_size + UINT_MOD - 1) % UINT_MOD = s.m_size - 1 := by
      rw [hU] at hcap ⊢
      omega
    obtain ⟨r1, he, hrl, hrc⟩ := @erase_ok_spec α _ Env.reliable s (s.m_size - 1) hv
      (by omega) rfl (fun _ _ => rfl) rfl
    have hpb : s.pop_back Env.reliable =
        ⟨.ok (), ⟨s.m_size - 1, s.m_capacity, some r1⟩⟩ := by
      unfold vector.pop_back
      rw [hidx]
      exact he
    have hv1 : (⟨s.m_size - 1, s.m_capacity, some r1⟩ : vector α).Valid :=
      ⟨by show s.m_size - 1 ≤ s.m_capacity; omega, hcap, hrl⟩
    obtain ⟨s1, hr, hv2, hsz1, hcap1, hcont⟩ := ih ⟨s.m_size - 1, s.m_capacity, some r1⟩ hv1
      (by show n ≤ s.m_size - 1; omega)
    have hcl := contents_length hv
    have h1 : (⟨s.m_size - 1, s.m_capacity, some r1⟩ : vector α).contents =
        s.contents.take (s.m_size - 1) := by
      show r1.take (s.m_size - 1) = _
      rw [hrc]
      apply List.ext_getElem?
      intro j
      simp only [List.getElem?_eraseIdx, List.getElem?_take]
      by_cases hj : j < s.m_size - 1
      · rw [if_pos hj, if_pos hj]
      · rw [if_neg hj, if_neg hj]
        exact List.getElem?_eq_none (by omega)
    refine ⟨s1, ?_, hv2, ?_, hcap1, ?_⟩
    · simp only [pop_back_times, hpb]
      exact hr
    · rw [hsz1]
      show s.m_size - 1 - n = s.m_size - (n + 1)
      omega
    · rw [hcont, h1]
      show List.take (s.m_size - 1 - n) (List.take (s.m_size - 1) s.contents) = _
      have hm : min (s.m_size - 1 - n) (s.m_size - 1) = s.m_size - (n + 1) := by omega
      rw [List.take_take, hm]

/-- While no `push_back` has to grow the vector (`size() + |vs| <= capacity()`)
and nothing throws, pushing the values of `vs` and popping as many times
returns and restores `size()`, `capacity()` and the elements. -/
theorem push_pop_round_with_free_slots [Inhabited α] (vs : List α) (s : vector α)
    (hv : s.Valid) (hroom : s.m_size + vs.length ≤ s.m_capacity) :
    (push_pop_round Env.reliable vs s).result = .ok () ∧
    (push_pop_round Env.reliable vs s).state.size = s.size ∧
    (push_pop_round Env.reliable vs s).state.capacity = s.capacity ∧
    (push_pop_round Env.reliable vs s).state.elements = s.elements := by
  obtain ⟨s1, h1, hv1, hsz1, hcap1, hc1⟩ := push_back_all_with_free_slots vs s hv hroom
  obtain ⟨s2, h2, hv2, hsz2, hcap2, hc2⟩ := pop_back_times_spec vs.length s1 hv1 (by omega)
  have hr : push_pop_round Env.reliable vs s = ⟨.ok (), s2⟩ := by
    unfold push_pop_round
    simp only [h1]
    exact h2
  have hcl := contents_length hv
  rw [hr]
  refine ⟨rfl, ?_, ?_, ?_⟩
  · show s2.m_size = s.m_size
    omega
  · show s2.m_capacity = s.m_capacity
    omega
  · rw [elements_of_valid hv2, elements_of_valid hv, hc2, hc1]
    congr 1
    have : s1.m_size - vs.length = s.contents.length := by omega
    rw [this]
    simp

/-- When the build phase of `insert` has completed and the release of the old
buffer does not throw, the call returns: the build phase only completes with
`m_size < m_capacity`, where nothing wraps and the capacity stays, so the
closing assertions hold. -/
theorem insert_returns_after_build [Inhabited α] {E : Env} {s : vector α} {index : Nat}
    {value : α} {r : List α} (hcap : s.m_capacity < UINT_MOD) (hi : index ≤ s.m_size)
    (hb : insert_build E index value s = .ok r) (hR : E.release_throws = none) :
    s.insert E index value = ⟨.ok (), ⟨s.m_size + 1, s.m_capacity, some r⟩⟩ := by
  obtain ⟨_, _, hroom, _⟩ := insert_build_ok hi hb
  have hU : UINT_MOD = 4294967296 := rfl
  have hS : SIZE_MOD = 18446744073709551616 := rfl
  have hmod1 : (s.m_size + 1) % UINT_MOD = s.m_size + 1 := Nat.mod_eq_of_lt (by omega)
  have hmod2 : s.m_capacity % UINT_MOD = s.m_capacity := Nat.mod_eq_of_lt hcap
  have hmod3 : (s.m_size + 1) % SIZE_MOD = s.m_size + 1 := Nat.mod_eq_of_lt (by omega)
  have hng : ¬ (s.m_size + 1 > s.m_capacity) := by omega
  rw [insert_of_build_ok hi hb]
  unfold insert_commit
  simp only [release_eq_ok hR, hmod1, if_neg hng, hmod2]
  rw [assert_all_eq_ok]
  intro c hc
  simp [hmod3] at hc
  rcases hc with rfl | rfl | rfl | rfl
  · rfl
  · rfl
  · simp; omega
  · simp

/-- The buffer of a vector after an `insert` that returned has as many slots as
the capacity was before the call. -/
theorem insert_ok_slots [Inhabited α] {E : Env} {s : vector α} {index : Nat} {value : α}
    (h : (s.insert E index value).result = .ok ()) :
    (s.insert E index value).state.slots = s.m_capacity := by
  have hi := (insert_ok_room h).1
  cases hb : insert_build E index value s with
  | error e =>
    rw [insert_of_build_error hi hb] at h
    exact absurd h (unwind_build_not_ok _ _ _ _)
  | ok r =>
    have hrl := (insert_build_ok hi hb).2.1
    rw [insert_of_build_ok hi hb] at h ⊢
    unfold insert_commit at h ⊢
    rcases release_result E s.m_vec with hr | ⟨c, hr⟩
    · simp only [hr, assert_all_state]
      exact hrl
    · simp only [hr] at h
      cases h

/-! ## Bounds of `erase`, the inverse pair, and the capacity bookkeeping -/

/-- The build phase of `erase` stays inside both arrays whenever the buffer has
`m_capacity` slots and `m_size <= m_capacity`. -/
theorem erase_build_in_bounds_of_slots [Inhabited α] {E : Env} {index : Nat} {s : vector α}
    (hslots : s.slots = s.m_capacity) (hsz : s.m_size ≤ s.m_capacity)
    (hi : index < s.m_size) :
    erase_build E index (s.m_size - 1) s ≠ .error .undefined_behaviour := by
  intro h
  obtain ⟨buf, hm, hbl⟩ : ∃ buf, s.m_vec = some buf ∧ buf.length = s.m_capacity := by
    unfold vector.slots at hslots
    cases hm : s.m_vec with
    | none =>
      rw [hm] at hslots
      have : 0 = s.m_capacity := hslots
      omega
    | some buf =>
      rw [hm] at hslots
      exact ⟨buf, rfl, hslots⟩
  unfold erase_build at h
  rw [hm] at h
  split at h
  · next e1 h1 =>
    unfold new_array at h1
    split at h1
    · injection h1 with h1
      injection h with h
      rw [← h1] at h
      cases h
    · cases h1
  · next nv0 h0 =>
    have hl0 : nv0.length = s.m_capacity := by
      rw [(new_array_ok h0).2]
      simp
    split at h
    · next e1 h1 =>
      injection h with h
      subst h
      obtain ⟨k, a, hk, hqa, hb⟩ := for_up_error_inv (fun l => l.length = s.m_capacity)
        (fun i a b hab hq => assign_from_length i i a b hab hq) _ _ _ hl0 h1
      have hqa2 : a.length = s.m_capacity := hqa
      exact assign_from_in_bounds (by omega) (by omega) hb
    · next nv1 h1 =>
      have hl1 : nv1.length = s.m_capacity :=
        for_up_preserve (fun l => l.length = s.m_capacity)
          (fun i a b hab hq => assign_from_length i i a b hab hq) _ _ _ _ h1 hl0
      obtain ⟨k, a, hk, hqa, hb⟩ := for_up_error_inv (fun l => l.length = s.m_capacity)
        (fun i a b hab hq => assign_from_length i (i + 1) a b hab hq) _ _ _ hl1 h
      have hqa2 : a.length = s.m_capacity := hqa
      exact assign_from_in_bounds (by omega) (by omega) hb

/-- Removing the spliced-in value again gives the original list. -/
theorem splice_eraseIdx (xs : List α) (i : Nat) (v : α) (hi : i ≤ xs.length) :
    (xs.take i ++ v :: xs.drop i).eraseIdx i = xs := by
  apply List.ext_getElem?
  intro j
  rw [List.getElem?_eraseIdx]
  by_cases h1 : j < i
  · rw [if_pos h1, splice_getElem? xs i v hi j, if_pos h1]
  · have h2 : ¬ j + 1 < i := by omega
    have h3 : ¬ j + 1 = i := by omega
    rw [if_neg h1, splice_getElem? xs i v hi (j + 1), if_neg h2, if_neg h3]
    rfl

/-- An `insert` that returns does what it does when the release of the old buffer
cannot throw: the release did not throw. -/
theorem insert_ok_release_free [Inhabited α] {E : Env} {s : vector α} {index : Nat}
    {value : α} (h : (s.insert E index value).result = .ok ()) :
    s.insert E index value =
      s.insert ⟨E.alloc_throws, E.copy_throws, none⟩ index value := by
  have hi := (insert_ok_room h).1
  have hbe : insert_build (⟨E.alloc_throws, E.copy_throws, none⟩ : Env) index value s =
      insert_build E index value s := rfl
  cases hb : insert_build E index value s with
  | error e =>
    rw [insert_of_build_error hi hb] at h
    exact absurd h (unwind_build_not_ok _ _ _ _)
  | ok r =>
    rw [hb] at hbe
    rw [insert_of_build_ok hi hb] at h ⊢
    rw [insert_of_build_ok hi hbe]
    unfold insert_commit at h ⊢
    rcases release_result E s.m_vec with hr | ⟨c, hr⟩
    · simp only [hr, release_eq_ok (rfl : (⟨E.alloc_throws, E.copy_throws, none⟩ :
        Env).release_throws = none)]
    · simp only [hr] at h
      cases h

/-- On a default-constructed vector no call returns and no call changes a data
member, in any environment. -/
theorem call_on_default [Inhabited α] (E : Env) (c : Call α) :
    (c.run E vector.ctor_default).state = vector.ctor_default ∧
    (c.run E vector.ctor_default).result ≠ .ok () := by
  have hins : ∀ index value,
      ((vector.ctor_default : vector α).insert E index value).state = vector.ctor_default ∧
      ((vector.ctor_default : vector α).insert E index value).result ≠ .ok () := by
    intro index value
    have hne : ((vector.ctor_default : vector α).insert E index value).result ≠ .ok () := by
      intro h
      have hroom : (0 : Nat) < 0 := (insert_ok_room h).2
      omega
    refine ⟨?_, hne⟩
    by_cases hi : index ≤ (vector.ctor_default : vector α).m_size
    · cases hb : insert_build E index value (vector.ctor_default : vector α) with
      | error e => rw [insert_of_build_error hi hb, unwind_build_state]
      | ok r =>
        have hroom : (0 : Nat) < 0 := (insert_build_ok hi hb).2.2.1
        omega
    · unfold vector.insert
      rw [if_pos hi]
  have hers : ∀ index,
      ((vector.ctor_default : vector α).erase E index) =
        ⟨.error (.assertion 281), vector.ctor_default⟩ := by
    intro index
    unfold vector.erase
    simp [vector.ctor_default]
  cases c with
  | insert index value => exact hins index value
  | erase index =>
    show (vector.erase E index vector.ctor_default).state = _ ∧ _
    rw [hers index]
    exact ⟨rfl, by intro h; cases h⟩
  | push_back value => exact hins _ value
  | pop_back =>
    show (vector.erase E ((0 + UINT_MOD - 1) % UINT_MOD) vector.ctor_default).state = _ ∧
      (vector.erase E ((0 + UINT_MOD - 1) % UINT_MOD) vector.ctor_default).result ≠ _
    rw [hers _]
    exact ⟨rfl, by intro h; cases h⟩

/-- Whatever sequence of calls is performed on a default-constructed vector, none
of them returns and the vector stays as constructed. -/
theorem run_calls_on_default [Inhabited α] :
    ∀ (calls : List (Env × Call α)) (o : Outcome α),
      o ∈ run_calls calls vector.ctor_default →
      o.state = vector.ctor_default ∧ o.result ≠ .ok () := by
  intro calls
  induction calls with
  | nil =>
    intro o ho
    simp [run_calls] at ho
  | cons ec rest ih =>
    obtain ⟨E, c⟩ := ec
    intro o ho
    have hstep := call_on_default E c
    simp only [run_calls] at ho
    split at ho
    · rcases List.mem_cons.mp ho with h | h
      · rw [h]
        exact hstep
      · rw [hstep.1] at h
        exact ih o h
    · rw [List.mem_singleton.mp ho]
      exact hstep

/-! ## Exceptions that leave the build phase -/

/-- The loop `new_vec[i] = m_vec[g i]` ends with the exception of the first copy
that throws, when the slots up to it are inside both arrays. -/
theorem for_up_first_fault (E : Env) (old : List α) (g : Nat → Nat) {j c : Nat}
    (hcj : E.copy_throws j = some c) :
    ∀ (n i0 : Nat) (nv : List α), i0 ≤ j → j < i0 + n →
      (∀ k, i0 ≤ k → k ≤ j → g k < old.length) → j < nv.length →
      (∀ k, i0 ≤ k → k < j → E.copy_throws k = none) →
      for_up (fun i nv => assign_from E (some old) i (g i) nv) n i0 nv =
        .error (.copy_assign c) := by
  intro n
  induction n with
  | zero =>
    intro i0 nv h1 h2
    omega
  | succ n ih =>
    intro i0 nv h1 h2 hg hlen hpre
    have hg0 : g i0 < old.length := hg i0 (by omega) (by omega)
    have hx : old[g i0]? = some old[g i0] := List.getElem?_eq_getElem hg0
    by_cases hij : i0 = j
    · subst hij
      have hb : assign_from E (some old) i0 (g i0) nv = .error (.copy_assign c) := by
        simp [assign_from, hx, assign_value, hlen, hcj]
      simp only [for_up, hb]
    · have hb : assign_from E (some old) i0 (g i0) nv = .ok (nv.set i0 old[g i0]) :=
        assign_from_eq_ok hx (by omega) (hpre i0 (by omega) (by omega))
      simp only [for_up, hb]
      exact ih (i0 + 1) _ (by omega) (by omega) (fun k h3 h4 => hg k (by omega) h4)
        (by simpa using hlen) (fun k h3 h4 => hpre k (by omega) h4)

/-- The build phase of `insert` on a valid vector ends with the exception of the
copy into slot `j` when the allocation succeeds, this copy is the only one
that throws, and it is performed: `j` belongs to the left part, or the vector
has a free slot.  The replacement buffer then has at least one slot. -/
theorem insert_build_single_fault [Inhabited α] {E : Env} {s : vector α} {index : Nat}
    {value : α} {j c : Nat} (hv : s.Valid) (hi : index ≤ s.m_size)
    (ha : E.alloc_throws s.m_capacity = false) (hcj : E.copy_throws j = some c)
    (hothers : ∀ k, k ≤ s.m_size → k ≠ j → E.copy_throws k = none)
    (hperf : j < index ∨ (j ≤ s.m_size ∧ s.m_size < s.m_capacity)) :
    insert_build E index value s = .error (.copy_assign c) ∧ 0 < s.m_capacity := by
  have hsz : s.m_size ≤ s.m_capacity := hv.1
  rcases hperf with hlt | ⟨hj, hroom⟩
  · obtain ⟨buf, hm, hbl⟩ := valid_buffer hv (by omega)
    refine ⟨?_, by omega⟩
    have hloop := for_up_first_fault E buf (fun i => i) hcj index 0
      (List.replicate s.m_capacity default) (by omega) (by omega)
      (fun k _ hk => by show k < buf.length; omega) (by simp; omega)
      (fun k _ hk => hothers k (by omega) (by omega))
    unfold insert_build new_array
    rw [hm]
    simp only [ha, Bool.false_eq_true, if_false]
    rw [hloop]
  · refine ⟨?_, by omega⟩
    cases hb : insert_build E index value s with
    | ok r =>
      have := (insert_build_ok hi hb).2.2.2 j hj
      rw [this] at hcj
      cases hcj
    | error e =>
      rcases insert_build_error hi hb with ⟨_, ha1⟩ | hu | ⟨j1, c1, hj1, hcj1, he⟩
      · rw [ha] at ha1
        cases ha1
      · rw [hu] at hb
        exact absurd hb (insert_build_in_bounds hv hi hroom)
      · by_cases hjj : j1 = j
        · rw [hjj, hcj] at hcj1
          injection hcj1 with hcc
          rw [he, ← hcc]
        · rw [hothers j1 hj1 hjj] at hcj1
          cases hcj1

/-- On a valid vector without a free slot whose left part is copied without an
exception, the build phase of `insert` ends in the access to slot `m_size` of
the replacement buffer, which has `m_capacity <= m_size` slots: no copy of the
right part or of the new value is performed. -/
theorem insert_build_full_undefined [Inhabited α] {E : Env} {s : vector α} {index : Nat}
    {value : α} (hv : s.Valid) (hi : index ≤ s.m_size) (hfull : s.m_capacity ≤ s.m_size)
    (ha : E.alloc_throws s.m_capacity = false)
    (hleft : ∀ k, k < index → E.copy_throws k = none) :
    insert_build E index value s = .error .undefined_behaviour := by
  have hsz : s.m_size ≤ s.m_capacity := hv.1
  obtain ⟨sz, cap, mv⟩ := s
  have hsc : sz = cap := by
    have h1 : cap ≤ sz := hfull
    have h2 : sz ≤ cap := hsz
    omega
  subst hsc
  have hi' : index ≤ sz := hi
  have ha' : E.alloc_throws sz = false := ha
  cases mv with
  | none =>
    have h0 : sz = 0 := hv.2.2
    subst h0
    have hx : index = 0 := by omega
    subst hx
    simp [insert_build, new_array, ha', for_up, for_down, assign_value]
  | some buf =>
    have hbl : buf.length = sz := hv.2.2
    obtain ⟨r1, hr1, hr1l, _⟩ := for_up_copy E buf (fun i => i) index 0
      (List.replicate sz default) (fun k _ hk => by show k < buf.length; omega)
      (by simp; omega) (fun k _ hk => hleft k (by omega))
    have hr1l' : r1.length = sz := by simpa using hr1l
    unfold insert_build new_array
    simp only [ha', Bool.false_eq_true, if_false]
    rw [hr1]
    by_cases hlt : index < sz
    · obtain ⟨k, hk⟩ : ∃ k, sz - index = k + 1 := ⟨sz - index - 1, by omega⟩
      have hx : buf[sz - 1]? = some buf[sz - 1] := List.getElem?_eq_getElem (by omega)
      have hb : assign_from E (some buf) sz (sz - 1) r1 = .error .undefined_behaviour := by
        simp [assign_from, hx, assign_value, hr1l']
      simp only [hk, for_down, hb]
    · have hx : index = sz := by omega
      subst hx
      simp [for_down, assign_value, hr1l']

/-- The build phase of `erase` on a valid vector ends with the exception of the
copy into slot `j` when the allocation succeeds and this copy is the only one
that throws.  The replacement buffer then has at least one slot. -/
theorem erase_build_single_fault [Inhabited α] {E : Env} {s : vector α} {index : Nat}
    {j c : Nat} (hv : s.Valid) (hi : index < s.m_size)
    (ha : E.alloc_throws s.m_capacity = false) (hj : j < s.m_size - 1)
    (hcj : E.copy_throws j = some c)
    (hothers : ∀ k, k < s.m_size - 1 → k ≠ j → E.copy_throws k = none) :
    erase_build E index (s.m_size - 1) s = .error (.copy_assign c) ∧ 0 < s.m_capacity := by
  have hsz : s.m_size ≤ s.m_capacity := hv.1
  refine ⟨?_, by omega⟩
  cases hb : erase_build E index (s.m_size - 1) s with
  | ok r =>
    have := (erase_build_ok hi hb).2.2 j hj
    rw [this] at hcj
    cases hcj
  | error e =>
    rcases erase_build_error hi hb with ⟨_, ha1⟩ | hu | ⟨j1, c1, hj1, hcj1, he⟩
    · rw [ha] at ha1
      cases ha1
    · rw [hu] at hb
      exact absurd hb (erase_build_in_bounds hv hi)
    · by_cases hjj : j1 = j
      · rw [hjj, hcj] at hcj1
        injection hcj1 with hcc
        rw [he, ← hcc]
      · rw [hothers j1 hj1 hjj] at hcj1
        cases hcj1

/-- The release of a replacement buffer with at least one slot throws when the
element destructor throws. -/
theorem release_owned_throws {E : Env} {n d : Nat} (hd : E.release_throws = some d)
    (hn : 0 < n) : release_owned E n = .error (.destructor d) := by
  unfold release_owned
  have : ¬ n = 0 := by omega
  simp [this, hd]

/-- When the one copy of `insert` that throws is performed and the element
destructor throws as well, the release of the partly filled replacement buffer
by its `unique_ptr` ends the program in `std::terminate`; no data member has
been assigned. -/
theorem insert_unwinding_terminates [Inhabited α] {E : Env} {s : vector α} {index : Nat}
    {value : α} {j c d : Nat} (hv : s.Valid) (hi : index ≤ s.m_size)
    (ha : E.alloc_throws s.m_capacity = false) (hcj : E.copy_throws j = some c)
    (hothers : ∀ k, k ≤ s.m_size → k ≠ j → E.copy_throws k = none)
    (hperf : j < index ∨ (j ≤ s.m_size ∧ s.m_size < s.m_capacity))
    (hd : E.release_throws = some d) :
    s.insert E index value = ⟨.error .terminate, s⟩ := by
  obtain ⟨hb, hcap⟩ := @insert_build_single_fault α _ E s index value j c hv hi ha hcj
    hothers hperf
  rw [insert_of_build_error hi hb]
  exact unwind_build_terminate (release_owned_throws hd hcap)

/-- When the one copy of `erase` that throws is performed and the element
destructor throws as well, the release of the partly filled replacement buffer
by its `unique_ptr` ends the program in `std::terminate`; no data member has
been assigned. -/
theorem erase_unwinding_terminates [Inhabited α] {E : Env} {s : vector α} {index : Nat}
    {j c d : Nat} (hv : s.Valid) (hi : index < s.m_size) (hl : index ≠ s.m_size - 1)
    (ha : E.alloc_throws s.m_capacity = false) (hj : j < s.m_size - 1)
    (hcj : E.copy_throws j = some c)
    (hothers : ∀ k, k < s.m_size - 1 → k ≠ j → E.copy_throws k = none)
    (hd : E.release_throws = some d) :
    s.erase E index = ⟨.error .terminate, s⟩ := by
  obtain ⟨hb, hcap⟩ := erase_build_single_fault hv hi ha hj hcj hothers
  rw [erase_of_build_error hi hl hb]
  exact unwind_build_terminate (release_owned_throws hd hcap)

/-- The copy into slot 1 and the element destructor both throw: `insert(0, 9)`
on `[1, 2]` with capacity 4 and `erase(0)` on `[1, 2, 3]` with capacity 4 end in
`std::terminate`, the vector unchanged. -/
theorem unwinding_terminates_example :
    vector.insert Env.copy_and_destructor_throw 0 (9 : Int) ⟨2, 4, some [1, 2, 0, 0]⟩ =
      ⟨.error .terminate, ⟨2, 4, some [1, 2, 0, 0]⟩⟩ ∧
    vector.erase Env.copy_and_destructor_throw 0 (⟨3, 4, some [1, 2, 3, 0]⟩ : vector Int) =
      ⟨.error .terminate, ⟨3, 4, some [1, 2, 3, 0]⟩⟩ :=
  ⟨rfl, rfl⟩

/-! ## Histories in which the build phase of an insert is taken to have completed -/

/-- An `insert` whose build phase completes is the step `insert_built` with the
replacement buffer of the build phase. -/
theorem insert_eq_insert_built [Inhabited α] {E : Env} {index : Nat} {value : α}
    {s : vector α} {r : List α} (hi : index ≤ s.m_size)
    (h : insert_build E index value s = .ok r) :
    s.insert E index value = s.insert_built E r :=
  insert_of_build_ok hi h

/-- A history of real calls is a history of steps. -/
theorem run_calls_eq_run_steps [Inhabited α] :
    ∀ (calls : List (Env × Call α)) (s : vector α),
      run_calls calls s = run_steps (calls.map fun p => (p.1, Step.call p.2)) s := by
  intro calls
  induction calls with
  | nil =>
    intro s
    rfl
  | cons ec rest ih =>
    obtain ⟨E, c⟩ := ec
    intro s
    simp only [run_calls, List.map, run_steps, Step.run]
    rw [ih]

/-- A loop of real `push_back` calls that returns is a loop of `push_back` steps
whose build phases have completed: the steps cover whatever the calls do. -/
theorem push_back_all_is_built [Inhabited α] (E : Env) :
    ∀ (vs : List α) (s : vector α), (push_back_all E vs s).result = .ok () →
      ∃ steps : List (Env × List α), steps.length = vs.length ∧
        push_back_all E vs s = push_back_built_all steps s := by
  intro vs
  induction vs with
  | nil =>
    intro s _
    exact ⟨[], rfl, rfl⟩
  | cons x rest ih =>
    intro s hok
    unfold push_back_all at hok ⊢
    cases hres : (s.push_back E x).result with
    | error e =>
      simp only [hres] at hok
      cases hok
    | ok u =>
      simp only [hres] at hok ⊢
      cases hb : insert_build E s.m_size x s with
      | error e =>
        have hins : s.push_back E x = unwind_build E s.m_capacity e s :=
          insert_of_build_error (Nat.le_refl _) hb
        rw [hins] at hres
        exact absurd hres (unwind_build_not_ok _ _ _ _)
      | ok r =>
        have heq : s.push_back E x = s.insert_built E r :=
          insert_eq_insert_built (Nat.le_refl _) hb
        obtain ⟨steps, hl, hs⟩ := ih _ hok
        refine ⟨(E, r) :: steps, by simp [hl], ?_⟩
        rw [hs]
        have hres2 : (s.insert_built E r).result = .ok u := by
          rw [← heq]
          exact hres
        simp only [push_back_built_all, hres2, heq]

/-! ## The claims -/

/-- C1 (code defect, evaluated at the failing input).  The vector constructed from
`{10, 10, 10, 10}` has size 4 and capacity 4; `insert(2, 0)` on it allocates a
replacement buffer of `m_capacity = 4` slots and its second loop starts with
`new_vec[4] = m_vec[3]`, an access outside the 4 slots: the call does not return
`[10, 10, 0, 10, 10]` but ends in undefined behaviour, the vector untouched. -/
theorem insert_into_full_vector :
    (vector.ctor_list Env.reliable vector.ctor_default [10, 10, 10, (10 : Int)]) =
      ⟨.ok (), ⟨4, 4, some [10, 10, 10, 10]⟩⟩ ∧
    vector.insert Env.reliable 2 (0 : Int) ⟨4, 4, some [10, 10, 10, 10]⟩ =
      ⟨.error .undefined_behaviour, ⟨4, 4, some [10, 10, 10, 10]⟩⟩ :=
  ⟨rfl, rfl⟩

/-- C2.  For every valid vector on which `at(0), ..., at(n - 1)` return the
sequence `xs` and every index `i < n`, `erase(i)` (with nothing throwing)
returns, `size()` is `n - 1` afterwards and `at(0), ..., at(n - 2)` return `xs`
with the element at position `i` removed. -/
theorem erase_removes_element [Inhabited α] (s : vector α) (xs : List α) (i : Nat)
    (hv : s.Valid) (hxs : s.elements = xs.map .ok) (hi : i < xs.length) :
    (s.erase Env.reliable i).result = .ok () ∧
    (s.erase Env.reliable i).state.size = xs.length - 1 ∧
    (s.erase Env.reliable i).state.elements = (xs.eraseIdx i).map .ok := by
  have hc : s.contents = xs := map_ok_injective ((elements_of_valid hv).symm.trans hxs)
  have hn : s.m_size = xs.length := by
    have := congrArg List.length hxs
    simpa [vector.elements] using this
  obtain ⟨r, he, hrl, hrc⟩ := @erase_ok_spec α _ Env.reliable s i hv (by omega)
    rfl (fun _ _ => rfl) rfl
  have hv2 : (⟨s.m_size - 1, s.m_capacity, some r⟩ : vector α).Valid := by
    refine ⟨?_, hv.2.1, hrl⟩
    have := hv.1
    show s.m_size - 1 ≤ s.m_capacity
    omega
  rw [he]
  refine ⟨rfl, ?_, ?_⟩
  · show s.m_size - 1 = xs.length - 1
    rw [hn]
  · rw [elements_of_valid hv2]
    show List.map Except.ok (r.take (s.m_size - 1)) = _
    rw [hrc, hc]

/-- Witness of C2: `[1, 2, 3, 4]` with `erase(1)` gives `[1, 3, 4]`. -/
theorem erase_removes_element_witness :
    (⟨4, 4, some [1, 2, 3, 4]⟩ : vector Int).Valid ∧
    (vector.erase Env.reliable 1 (⟨4, 4, some [1, 2, 3, 4]⟩ : vector Int)).result = .ok () ∧
    (vector.erase Env.reliable 1 (⟨4, 4, some [1, 2, 3, 4]⟩ : vector Int)).state.size = 3 ∧
    (vector.erase Env.reliable 1 (⟨4, 4, some [1, 2, 3, 4]⟩ : vector Int)).state.elements =
      [.ok 1, .ok 3, .ok 4] :=
  ⟨⟨by decide, by decide, rfl⟩,
    erase_removes_element ⟨4, 4, some [1, 2, 3, 4]⟩ [1, 2, 3, 4] 1
      ⟨by decide, by decide, rfl⟩ rfl (by decide)⟩

/-- C3.  Failure atomicity of `insert`, for every environment, vector, value and
index `index <= size()`; the allocation and the copies are the operations that
fail, the element destructor does not throw where an exception is to reach the
caller:
* if the allocation throws, `insert` ends with `std::bad_alloc` and the three
  data members are what they were;
* on every valid vector, with or without a free slot, if the allocation
  succeeds and the copy into slot `j` is the only one that throws and is
  performed (`j` belongs to the left part, or the vector has a free slot),
  `insert` ends with exactly that exception and the data members are what they
  were;
* on a valid vector without a free slot whose left part is copied without an
  exception, no copy of the right part or of the new value is performed: the
  call ends before it, in the access to slot `size()` of the replacement
  buffer, and the data members are what they were;
* if the copy into any of the slots `0 .. size()` throws, `insert` does not
  return and the data members are what they were;
* whenever `insert` ends with `std::bad_alloc` or with a copy exception, that
  exception was thrown by the allocation, respectively by the copy into one of
  the slots `0 .. size()`, and the data members are what they were. -/
theorem insert_failure_atomic [Inhabited α] (E : Env) (s : vector α) (index : Nat)
    (value : α) (hi : index ≤ s.m_size) :
    (E.alloc_throws s.m_capacity = true →
      s.insert E index value = ⟨.error .bad_alloc, s⟩) ∧
    (∀ j c, s.Valid → E.alloc_throws s.m_capacity = false → E.release_throws = none →
      E.copy_throws j = some c →
      (∀ k, k ≤ s.m_size → k ≠ j → E.copy_throws k = none) →
      (j < index ∨ (j ≤ s.m_size ∧ s.m_size < s.m_capacity)) →
      s.insert E index value = ⟨.error (.copy_assign c), s⟩) ∧
    (s.Valid → s.m_capacity ≤ s.m_size → E.alloc_throws s.m_capacity = false →
      (∀ k, k < index → E.copy_throws k = none) →
      s.insert E index value = ⟨.error .undefined_behaviour, s⟩) ∧
    (∀ j c, j ≤ s.m_size → E.copy_throws j = some c →
      ∃ e, s.insert E index value = ⟨.error e, s⟩) ∧
    ((s.insert E index value).result = .error .bad_alloc →
      E.alloc_throws s.m_capacity = true ∧ (s.insert E index value).state = s) ∧
    (∀ c, (s.insert E index value).result = .error (.copy_assign c) →
      (∃ j, j ≤ s.m_size ∧ E.copy_throws j = some c) ∧
      (s.insert E index value).state = s) := by
  refine ⟨?_, ?_, ?_, ?_⟩
  · intro ha
    have hb : insert_build E index value s = .error .bad_alloc := by
      unfold insert_build new_array
      simp only [ha, if_true]
    rw [insert_of_build_error hi hb]
    rfl
  · intro j c hv ha hR hcj hothers hperf
    obtain ⟨hb, _⟩ := @insert_build_single_fault α _ E s index value j c hv hi ha hcj
      hothers hperf
    rw [insert_of_build_error hi hb]
    exact unwind_build_copy (release_owned_eq_ok (Or.inl hR))
  · intro hv hfull ha hleft
    rw [insert_of_build_error hi (insert_build_full_undefined hv hi hfull ha hleft)]
    rfl
  · cases hb : insert_build E index value s with
    | error e =>
      have hins := insert_of_build_error hi hb
      have hst : (s.insert E index value).state = s := by
        rw [hins, unwind_build_state]
      refine ⟨?_, ?_, ?_⟩
      · intro j c _ _
        rcases unwind_build_result E s.m_capacity e s with h1 | ⟨h1, _⟩
        · exact ⟨e, hins.trans h1⟩
        · exact ⟨.terminate, hins.trans h1⟩
      · intro hr
        refine ⟨?_, hst⟩
        rw [hins] at hr
        rcases unwind_build_result E s.m_capacity e s with h1 | ⟨h1, _⟩
        · rw [h1] at hr
          injection hr with hr
          subst hr
          rcases insert_build_error hi hb with ⟨_, ha⟩ | hu | ⟨j, c, _, _, hc⟩
          · exact ha
          · cases hu
          · cases hc
        · rw [h1] at hr
          cases hr
      · intro c hr
        refine ⟨?_, hst⟩
        rw [hins] at hr
        rcases unwind_build_result E s.m_capacity e s with h1 | ⟨h1, _⟩
        · rw [h1] at hr
          injection hr with hr
          subst hr
          rcases insert_build_error hi hb with ⟨hc, _⟩ | hu | ⟨j, c1, hj, hcj, hc⟩
          · cases hc
          · cases hu
          · injection hc with hc
            subst hc
            exact ⟨j, hj, hcj⟩
        · rw [h1] at hr
          cases hr
    | ok r =>
      obtain ⟨ha, _, _, hc⟩ := insert_build_ok hi hb
      have hres := insert_commit_result E s.m_size s.m_capacity
          (if (s.m_size + 1) % UINT_MOD > s.m_capacity then _get_new_capacity s.m_capacity
           else s.m_capacity) ((s.m_size + 1) % UINT_MOD) r s
      rw [← insert_of_build_ok hi hb] at hres
      refine ⟨?_, ?_, ?_⟩
      · intro j c hj hcj
        rw [hc j hj] at hcj
        cases hcj
      · intro hr
        rcases hres with h1 | ⟨c, h1⟩ | ⟨l, h1⟩ <;> rw [h1] at hr <;> cases hr
      · intro c hr
        rcases hres with h1 | ⟨c1, h1⟩ | ⟨l, h1⟩ <;> rw [h1] at hr <;> cases hr

/-- Witness of C3: the copy into slot 1 throws.  In `[1, 2]` with capacity 4 it
belongs to the right part of `insert(0, 9)`; in `[1, 2]` with capacity 2, a
vector without a free slot, it belongs to the left part of `insert(2, 9)`.
Either call ends with that exception and the vector is unchanged. -/
theorem insert_failure_atomic_witness :
    (0 ≤ (⟨2, 4, some [1, 2, 0, 0]⟩ : vector Int).m_size) ∧
    vector.insert Env.copy_one_throws 0 (9 : Int) ⟨2, 4, some [1, 2, 0, 0]⟩ =
      ⟨.error (.copy_assign 7), ⟨2, 4, some [1, 2, 0, 0]⟩⟩ ∧
    (2 ≤ (⟨2, 2, some [1, 2]⟩ : vector Int).m_size) ∧
    vector.insert Env.copy_one_throws 2 (9 : Int) ⟨2, 2, some [1, 2]⟩ =
      ⟨.error (.copy_assign 7), ⟨2, 2, some [1, 2]⟩⟩ :=
  ⟨by decide,
    (insert_failure_atomic Env.copy_one_throws ⟨2, 4, some [1, 2, 0, 0]⟩ 0 (9 : Int)
      (by decide)).2.1 1 7 ⟨by decide, by decide, rfl⟩ rfl rfl rfl
      (fun k _ hk => if_neg hk) (Or.inr ⟨by decide, by decide⟩),
    by decide,
    (insert_failure_atomic Env.copy_one_throws ⟨2, 2, some [1, 2]⟩ 2 (9 : Int)
      (by decide)).2.1 1 7 ⟨by decide, by decide, rfl⟩ rfl rfl rfl
      (fun k _ hk => if_neg hk) (Or.inl (by decide))⟩

/-- C4.  Failure atomicity of `erase`, for every environment, vector and index
`index < size()`; the allocation and the copies are the operations that fail,
the element destructor does not throw where an exception is to reach the
caller:
* when the last element is erased, nothing is allocated and nothing is copied:
  the call is the same in every environment;
* otherwise, if the allocation throws, `erase` ends with `std::bad_alloc` and
  the three data members are what they were;
* otherwise, on a valid vector, if the allocation succeeds and the copy into
  slot `j` is the only one that throws, `erase` ends with exactly that
  exception and the data members are what they were;
* otherwise, if the copy into any of the slots `0 .. size() - 2` throws,
  `erase` does not return and the data members are what they were;
* whenever `erase` ends with `std::bad_alloc` or with a copy exception, that
  exception was thrown by the allocation, respectively by the copy into one of
  the slots `0 .. size() - 2`, and the data members are what they were. -/
theorem erase_failure_atomic [Inhabited α] (E : Env) (s : vector α) (index : Nat)
    (hi : index < s.m_size) :
    (index = s.m_size - 1 → s.erase E index = s.erase Env.reliable index) ∧
    (index ≠ s.m_size - 1 → E.alloc_throws s.m_capacity = true →
      s.erase E index = ⟨.error .bad_alloc, s⟩) ∧
    (∀ j c, s.Valid → index ≠ s.m_size - 1 → E.alloc_throws s.m_capacity = false →
      E.release_throws = none → j < s.m_size - 1 → E.copy_throws j = some c →
      (∀ k, k < s.m_size - 1 → k ≠ j → E.copy_throws k = none) →
      s.erase E index = ⟨.error (.copy_assign c), s⟩) ∧
    (∀ j c, index ≠ s.m_size - 1 → j < s.m_size - 1 → E.copy_throws j = some c →
      ∃ e, s.erase E index = ⟨.error e, s⟩) ∧
    ((s.erase E index).result = .error .bad_alloc →
      E.alloc_throws s.m_capacity = true ∧ (s.erase E index).state = s) ∧
    (∀ c, (s.erase E index).result = .error (.copy_assign c) →
      (∃ j, j < s.m_size - 1 ∧ E.copy_throws j = some c) ∧
      (s.erase E index).state = s) := by
  refine ⟨?_, ?_, ?_, ?_⟩
  · intro hl
    rw [erase_last hi hl, erase_last hi hl]
  · intro hl ha
    have hb : erase_build E index (s.m_size - 1) s = .error .bad_alloc := by
      unfold erase_build new_array
      simp only [ha, if_true]
    rw [erase_of_build_error hi hl hb]
    rfl
  · intro j c hv hl ha hR hj hcj hothers
    obtain ⟨hb, _⟩ := erase_build_single_fault hv hi ha hj hcj hothers
    rw [erase_of_build_error hi hl hb]
    exact unwind_build_copy (release_owned_eq_ok (Or.inl hR))
  · by_cases hl : index = s.m_size - 1
    · have hres := erase_finish_result s.m_size s.m_capacity (s.m_size - 1) s
      rw [← @erase_last α _ E index s hi hl] at hres
      refine ⟨fun _ _ h => absurd hl h, ?_, ?_⟩
      · intro hr
        rcases hres with h1 | ⟨l, h1⟩ <;> rw [h1] at hr <;> cases hr
      · intro c hr
        rcases hres with h1 | ⟨l, h1⟩ <;> rw [h1] at hr <;> cases hr
    · cases hb : erase_build E index (s.m_size - 1) s with
      | error e =>
        have hers := erase_of_build_error hi hl hb
        have hst : (s.erase E index).state = s := by
          rw [hers, unwind_build_state]
        refine ⟨?_, ?_, ?_⟩
        · intro j c _ _ _
          rcases unwind_build_result E s.m_capacity e s with h1 | ⟨h1, _⟩
          · exact ⟨e, hers.trans h1⟩
          · exact ⟨.terminate, hers.trans h1⟩
        · intro hr
          refine ⟨?_, hst⟩
          rw [hers] at hr
          rcases unwind_build_result E s.m_capacity e s with h1 | ⟨h1, _⟩
          · rw [h1] at hr
            injection hr with hr
            subst hr
            rcases erase_build_error hi hb with ⟨_, ha⟩ | hu | ⟨j, c, _, _, hc⟩
            · exact ha
            · cases hu
            · cases hc
          · rw [h1] at hr
            cases hr
        · intro c hr
          refine ⟨?_, hst⟩
          rw [hers] at hr
          rcases unwind_build_result E s.m_capacity e s with h1 | ⟨h1, _⟩
          · rw [h1] at hr
            injection hr with hr
            subst hr
            rcases erase_build_error hi hb with ⟨hc, _⟩ | hu | ⟨j, c1, hj, hcj, hc⟩
            · cases hc
            · cases hu
            · injection hc with hc
              subst hc
              exact ⟨j, hj, hcj⟩
          · rw [h1] at hr
            cases hr
      | ok r =>
        obtain ⟨ha, _, hc⟩ := erase_build_ok hi hb
        have hres := erase_commit_result E s.m_size s.m_capacity (s.m_size - 1) r s
        rw [← erase_of_build_ok hi hl hb] at hres
        refine ⟨?_, ?_, ?_⟩
        · intro j c _ hj hcj
          rw [hc j hj] at hcj
          cases hcj
        · intro hr
          rcases hres with h1 | ⟨c, h1⟩ | ⟨l, h1⟩ <;> rw [h1] at hr <;> cases hr
        · intro c hr
          rcases hres with h1 | ⟨c1, h1⟩ | ⟨l, h1⟩ <;> rw [h1] at hr <;> cases hr

/-- Witness of C4: in `[1, 2, 3]` with capacity 4 the copy into slot 1 throws
during `erase(0)`; the call ends with that exception and the vector is
unchanged. -/
theorem erase_failure_atomic_witness :
    (0 < (⟨3, 4, some [1, 2, 3, 0]⟩ : vector Int).m_size) ∧
    vector.erase Env.copy_one_throws 0 (⟨3, 4, some [1, 2, 3, 0]⟩ : vector Int) =
      ⟨.error (.copy_assign 7), ⟨3, 4, some [1, 2, 3, 0]⟩⟩ :=
  ⟨by decide,
    (erase_failure_atomic Env.copy_one_throws (⟨3, 4, some [1, 2, 3, 0]⟩ : vector Int) 0
      (by decide)).2.2.1 1 7 ⟨by decide, by decide, rfl⟩ (by decide) rfl rfl (by decide) rfl
      (fun k _ hk => if_neg hk)⟩

/-- C5.  Start from a default-constructed vector or from a vector that the list
constructor has returned, and perform any finite sequence of `insert` / `erase` /
`push_back` / `pop_back` calls, each in any environment.  After every call of
the sequence (in particular after every call that returns)
`size() <= capacity()` holds. -/
theorem size_le_capacity_after_calls [Inhabited α] (s0 : vector α)
    (calls : List (Env × Call α)) (o : Outcome α)
    (hstart : s0 = vector.ctor_default ∨
      ∃ E raw init, (vector.ctor_list E raw init).result = .ok () ∧
        (vector.ctor_list E raw init).state = s0)
    (ho : o ∈ run_calls calls s0) :
    o.state.size ≤ o.state.capacity :=
  (run_calls_inv calls s0 (start_inv hstart).1 (start_inv hstart).2 o ho).1.1

/-- Witness of C5: `{1, 2, 3, 4}`, then `erase(1)` and `insert(0, 9)`, which both
return. -/
theorem size_le_capacity_after_calls_witness :
    (⟨.ok (), ⟨4, 4, some [9, 1, 3, 4]⟩⟩ : Outcome Int) ∈
      run_calls [(Env.reliable, .erase 1), (Env.reliable, .insert 0 9)]
        (vector.ctor_list Env.reliable vector.ctor_default [1, 2, 3, 4]).state ∧
    (⟨4, 4, some [9, 1, 3, 4]⟩ : vector Int).size ≤
      (⟨4, 4, some [9, 1, 3, 4]⟩ : vector Int).capacity :=
  ⟨List.mem_cons_of_mem _ (List.mem_cons_self _ _),
    size_le_capacity_after_calls (⟨4, 4, some [1, 2, 3, 4]⟩ : vector Int)
      [(Env.reliable, .erase 1), (Env.reliable, .insert 0 9)]
      ⟨.ok (), ⟨4, 4, some [9, 1, 3, 4]⟩⟩
      (Or.inr ⟨Env.reliable, vector.ctor_default, [1, 2, 3, 4], rfl, rfl⟩)
      (List.mem_cons_of_mem _ (List.mem_cons_self _ _))⟩

/-- C6 (code defect, evaluated at the failing input).  The first `push_back` on a
default-constructed vector allocates a replacement buffer of `m_capacity = 0`
slots and then executes `new_vec[0] = value`: it ends in undefined behaviour
instead of returning with `capacity() == 1`, and in no environment does it
return. -/
theorem first_push_back_is_undefined :
    vector.push_back Env.reliable (5 : Int) vector.ctor_default =
      ⟨.error .undefined_behaviour, vector.ctor_default⟩ ∧
    ∀ (E : Env) (v : Int), (vector.push_back E v vector.ctor_default).result ≠ .ok () := by
  refine ⟨rfl, ?_⟩
  intro E v h
  have := (insert_ok_room h).2
  exact absurd this (by decide)

/-- The construction round trip below `2^32` elements.  For every non-empty
input sequence of length `n < 2^32` (and nothing throwing) the list constructor
returns, `size() == n`, `capacity() == n`, and `at(0), ..., at(n - 1)` return
the elements of the sequence in order, whatever the indeterminate initial
values of the members. -/
theorem ctor_list_round_trip [Inhabited α] (raw : vector α) (init : List α)
    (hne : init ≠ []) (hlen : init.length < UINT_MOD) :
    (vector.ctor_list Env.reliable raw init).result = .ok () ∧
    (vector.ctor_list Env.reliable raw init).state.size = init.length ∧
    (vector.ctor_list Env.reliable raw init).state.capacity = init.length ∧
    (vector.ctor_list Env.reliable raw init).state.elements = init.map .ok := by
  have hc : ¬ init.length = 0 := by
    intro h
    exact hne (List.length_eq_zero.mp h)
  have hmod : init.length % UINT_MOD = init.length := Nat.mod_eq_of_lt hlen
  have he : vector.ctor_list Env.reliable raw init =
      ⟨.ok (), ⟨init.length, init.length, some init⟩⟩ := by
    unfold vector.ctor_list
    simp only [hc, if_false, ctor_build_reliable, hmod]
    rw [assert_all_eq_ok]
    intro c hcm
    simp at hcm
    rcases hcm with rfl | rfl | rfl <;> rfl
  have hv : (⟨init.length, init.length, some init⟩ : vector α).Valid :=
    ⟨Nat.le_refl _, hlen, rfl⟩
  rw [he]
  refine ⟨rfl, rfl, rfl, ?_⟩
  rw [elements_of_valid hv]
  simp [vector.contents]

/-- The list `{3, 2, 1}` of `test_constructor_initializer` gives size 3,
capacity 3 and `at(0), at(1), at(2)` equal to `3, 2, 1`, here from the
indeterminate members `7, 9, nullptr`. -/
theorem ctor_list_round_trip_witness :
    ([3, 2, (1 : Int)] ≠ []) ∧ [3, 2, (1 : Int)].length < UINT_MOD ∧
    (vector.ctor_list Env.reliable ⟨7, 9, none⟩ [3, 2, (1 : Int)]).result = .ok () ∧
    (vector.ctor_list Env.reliable ⟨7, 9, none⟩ [3, 2, (1 : Int)]).state.size = 3 ∧
    (vector.ctor_list Env.reliable ⟨7, 9, none⟩ [3, 2, (1 : Int)]).state.capacity = 3 ∧
    (vector.ctor_list Env.reliable ⟨7, 9, none⟩ [3, 2, (1 : Int)]).state.elements =
      [.ok 3, .ok 2, .ok 1] :=
  ⟨by decide, by decide,
    ctor_list_round_trip ⟨7, 9, none⟩ [3, 2, (1 : Int)] (by decide) (by decide)⟩

/-- C7 (code defect, evaluated at the failing input).  The length of the input
sequence is a `size_t`, the members `m_size` and `m_capacity` are
`unsigned int`.  For the sequence of `2^32` zeros the assignment
`m_size = count` of line 172 stores `0`, the constructor fails its own
assertion `count == m_size` of line 176 instead of returning, and `size()` is
`0`, not `2^32`. -/
theorem ctor_list_huge :
    (vector.ctor_list Env.reliable vector.ctor_default four_gib_list).result =
      .error (.assertion 176) ∧
    (vector.ctor_list Env.reliable vector.ctor_default four_gib_list).state.size = 0 ∧
    four_gib_list.length = 4294967296 := by
  have hl : four_gib_list.length = UINT_MOD := by
    unfold four_gib_list
    exact List.length_replicate _ _
  have hU : UINT_MOD = 4294967296 := rfl
  have hm : four_gib_list.length % UINT_MOD = 0 := by
    rw [hl]
    exact Nat.mod_self _
  have h := ctor_list_truncated vector.ctor_default four_gib_list (by omega) (by omega)
  rw [hm] at h
  exact ⟨h.1, h.2, by omega⟩

/-- C8.  For every environment, vector and index, if `erase(i)` returns then
`capacity()` is what it was before the call, and likewise for `pop_back()`. -/
theorem erase_keeps_capacity [Inhabited α] (E : Env) (s : vector α) (i : Nat) :
    ((s.erase E i).result = .ok () → (s.erase E i).state.capacity = s.capacity) ∧
    ((s.pop_back E).result = .ok () → (s.pop_back E).state.capacity = s.capacity) :=
  ⟨fun _ => erase_state_capacity E s i, fun _ => erase_state_capacity E s _⟩

/-- Witness of C8: `erase(1)` and `pop_back()` on `[1, 2, 3, 4]` return and leave
the capacity 4. -/
theorem erase_keeps_capacity_witness :
    (vector.erase Env.reliable 1 (⟨4, 4, some [1, 2, 3, 4]⟩ : vector Int)).result = .ok () ∧
    (vector.erase Env.reliable 1 (⟨4, 4, some [1, 2, 3, 4]⟩ : vector Int)).state.capacity = 4 ∧
    (vector.pop_back Env.reliable (⟨4, 4, some [1, 2, 3, 4]⟩ : vector Int)).result = .ok () ∧
    (vector.pop_back Env.reliable (⟨4, 4, some [1, 2, 3, 4]⟩ : vector Int)).state.capacity = 4 :=
  ⟨rfl,
    (erase_keeps_capacity Env.reliable (⟨4, 4, some [1, 2, 3, 4]⟩ : vector Int) 1).1 rfl,
    rfl,
    (erase_keeps_capacity Env.reliable (⟨4, 4, some [1, 2, 3, 4]⟩ : vector Int) 1).2 rfl⟩

/-- The allocation invariant along sequences of calls alone.  Start from a
default-constructed vector or from a vector that the list constructor has
returned and perform any finite sequence of `insert` / `erase` / `push_back` /
`pop_back` calls, each in any environment.  After every call of the sequence
`capacity() == 0` holds if and only if the storage pointer is null. -/
theorem capacity_zero_iff_no_buffer [Inhabited α] (s0 : vector α)
    (calls : List (Env × Call α)) (o : Outcome α)
    (hstart : s0 = vector.ctor_default ∨
      ∃ E raw init, (vector.ctor_list E raw init).result = .ok () ∧
        (vector.ctor_list E raw init).state = s0)
    (ho : o ∈ run_calls calls s0) :
    o.state.capacity = 0 ↔ o.state.m_vec = none :=
  (run_calls_inv calls s0 (start_inv hstart).1 (start_inv hstart).2 o ho).2

/-- The allocation invariant at a default-constructed vector after
`push_back(1)`, which ends the program there, and at `{1, 2}` after a
`pop_back()` that returns. -/
theorem capacity_zero_iff_no_buffer_witness :
    ((vector.ctor_default : vector Int).capacity = 0 ↔
      (vector.ctor_default : vector Int).m_vec = none) ∧
    ((⟨1, 2, some [1, 2]⟩ : vector Int).capacity = 0 ↔
      (⟨1, 2, some [1, 2]⟩ : vector Int).m_vec = none) :=
  ⟨capacity_zero_iff_no_buffer (vector.ctor_default : vector Int)
      [(Env.reliable, .push_back 1), (Env.reliable, .pop_back)]
      ⟨.error .undefined_behaviour, vector.ctor_default⟩
      (Or.inl rfl)
      (List.mem_cons_self _ _),
    capacity_zero_iff_no_buffer (⟨2, 2, some [1, 2]⟩ : vector Int)
      [(Env.reliable, .pop_back)]
      ⟨.ok (), ⟨1, 2, some [1, 2]⟩⟩
      (Or.inr ⟨Env.reliable, vector.ctor_default, [1, 2], rfl, rfl⟩)
      (List.mem_cons_self _ _)⟩

/-- C10 (code defect, evaluated at the failing input).  The round of
`test_regular_use`, four `push_back` calls and four `pop_back` calls on a
default-constructed `vector<size_t>`, ends in undefined behaviour in its first
`push_back` (see C6) instead of returning with the vector empty again; from a
default-constructed vector no round with at least one value returns, in any
environment. -/
theorem push_pop_round_is_undefined :
    push_pop_round Env.reliable [0, 1, 2, 3] (vector.ctor_default : vector Nat) =
      ⟨.error .undefined_behaviour, vector.ctor_default⟩ ∧
    ∀ (E : Env) (v : Nat) (vs : List Nat),
      (push_pop_round E (v :: vs) vector.ctor_default).result ≠ .ok () := by
  refine ⟨rfl, ?_⟩
  intro E v vs h
  unfold push_pop_round push_back_all at h
  cases hp : (vector.push_back E v (vector.ctor_default : vector Nat)).result with
  | error e =>
    simp only [hp] at h
    cases h
  | ok u =>
    have := (@insert_ok_room Nat _ E vector.ctor_default 0 v hp).2
    exact absurd this (by decide)

/-- C11.  On every vector with `size() == 0`, whatever its capacity and buffer
and in every environment, `pop_back()` fails the precondition assertion of
`erase` (line 281) and leaves the three data members as they were.  The index
it passes to `erase` is `m_size - 1` computed in `unsigned int`, that is
`4294967295`, which is not below `size()`; `erase` rejects every index on such
a vector. -/
theorem pop_back_on_empty [Inhabited α] (E : Env) (s : vector α) (h : s.size = 0) :
    s.pop_back E = ⟨.error (.assertion 281), s⟩ ∧
    (s.m_size + UINT_MOD - 1) % UINT_MOD = 4294967295 ∧
    ¬ ((s.m_size + UINT_MOD - 1) % UINT_MOD < s.size) ∧
    ∀ index, s.erase E index = ⟨.error (.assertion 281), s⟩ := by
  have h0 : s.m_size = 0 := h
  have hall : ∀ index, s.erase E index = ⟨.error (.assertion 281), s⟩ := by
    intro index
    unfold vector.erase
    simp [h0]
  refine ⟨hall _, ?_, ?_, hall⟩
  · rw [h0]
    rfl
  · show ¬ ((s.m_size + UINT_MOD - 1) % UINT_MOD < s.m_size)
    rw [h0]
    exact Nat.not_lt_zero _

/-- Witness of C11: an empty vector that still has capacity 4, in the environment
in which everything throws. -/
theorem pop_back_on_empty_witness :
    (⟨0, 4, some [1, 2, 3, 4]⟩ : vector Int).size = 0 ∧
    vector.pop_back Env.nothing_works (⟨0, 4, some [1, 2, 3, 4]⟩ : vector Int) =
      ⟨.error (.assertion 281), ⟨0, 4, some [1, 2, 3, 4]⟩⟩ :=
  ⟨rfl, (pop_back_on_empty Env.nothing_works (⟨0, 4, some [1, 2, 3, 4]⟩ : vector Int) rfl).1⟩

/-- C12.  For every vector and every environment (also one in which every
allocation throws): `insert(i, v)` with `i > size()` fails the assertion of
line 220, `erase(i)` with `i >= size()` fails the assertion of line 281 (empty
vector) or of line 283, and in each case the call is left with the three data
members, and so the buffer, as they were; the result does not depend on
the environment, so neither an allocation nor a copy has been attempted. -/
theorem out_of_range_rejected [Inhabited α] (E : Env) (s : vector α) (index : Nat)
    (value : α) :
    (s.size < index → s.insert E index value = ⟨.error (.assertion 220), s⟩) ∧
    (s.size ≤ index → s.size = 0 → s.erase E index = ⟨.error (.assertion 281), s⟩) ∧
    (s.size ≤ index → 0 < s.size → s.erase E index = ⟨.error (.assertion 283), s⟩) := by
  refine ⟨?_, ?_, ?_⟩
  · intro h
    have h1 : ¬ (index ≤ s.m_size) := Nat.not_le.mpr h
    unfold vector.insert
    rw [if_pos h1]
  · intro _ h0
    have h1 : ¬ (0 < s.m_size) := by
      have : s.m_size = 0 := h0
      omega
    unfold vector.erase
    rw [if_pos h1]
  · intro h h0
    have h1 : ¬ ¬ (0 < s.m_size) := fun hn => hn h0
    have h2 : ¬ (index < s.m_size) := Nat.not_lt.mpr h
    unfold vector.erase
    rw [if_neg h1, if_pos h2]

/-- Witness of C12: `[1, 2]` with capacity 4, `insert(3, 9)` and `erase(2)`; the
empty vector, `erase(0)`; all in the environment in which everything throws. -/
theorem out_of_range_rejected_witness :
    vector.insert Env.nothing_works 3 (9 : Int) ⟨2, 4, some [1, 2, 0, 0]⟩ =
      ⟨.error (.assertion 220), ⟨2, 4, some [1, 2, 0, 0]⟩⟩ ∧
    vector.erase Env.nothing_works 2 (⟨2, 4, some [1, 2, 0, 0]⟩ : vector Int) =
      ⟨.error (.assertion 283), ⟨2, 4, some [1, 2, 0, 0]⟩⟩ ∧
    vector.erase Env.nothing_works 0 (vector.ctor_default : vector Int) =
      ⟨.error (.assertion 281), vector.ctor_default⟩ :=
  ⟨(out_of_range_rejected Env.nothing_works ⟨2, 4, some [1, 2, 0, 0]⟩ 3 (9 : Int)).1
      (by decide),
    (out_of_range_rejected Env.nothing_works ⟨2, 4, some [1, 2, 0, 0]⟩ 2 (9 : Int)).2.2
      (by decide) (by decide),
    (out_of_range_rejected Env.nothing_works (vector.ctor_default : vector Int) 0
      (9 : Int)).2.1 (by decide) rfl⟩

/-- C13.  For every vector and index, the two `operator[]` overloads and the
non-const `at` give what the const `at` gives.  `at(i)` fails the bounds
assertion of line 370 whenever `i >= size()`, whatever the capacity; on a valid
vector it returns the element at position `i` of the live elements when
`i < size()`.  (Both are const operations: they are functions of the state and
yield no new state.) -/
theorem at_bounds_checked (s : vector α) (i : Nat) :
    s.subscript i = s.at_ i ∧ s.subscript_const i = s.at_ i ∧
    s.at_nonconst i = s.at_ i ∧
    (s.size ≤ i → s.at_ i = .error (.assertion 370)) ∧
    (s.Valid → i < s.size →
      ∃ x, s.contents[i]? = some x ∧ s.at_ i = .ok x ∧ s.subscript i = .ok x) := by
  refine ⟨rfl, rfl, rfl, ?_, ?_⟩
  · intro h
    have h1 : ¬ (i < s.m_size) := Nat.not_lt.mpr h
    unfold vector.at_
    rw [if_pos h1]
  · intro hv hi
    have hi' : i < s.m_size := hi
    obtain ⟨buf, hm, hbl⟩ := valid_buffer hv (by omega)
    have hsz : s.m_size ≤ s.m_capacity := hv.1
    have hib : i < buf.length := by omega
    have hx : buf[i]? = some buf[i] := List.getElem?_eq_getElem hib
    have hat : s.at_ i = .ok buf[i] := by
      unfold vector.at_
      simp [hi', hm, hx]
    refine ⟨buf[i], ?_, hat, hat⟩
    simp [vector.contents, hm, List.getElem?_take, hi', hx]

/-- Witness of C13: `[1, 2]` with capacity 4: `at(1)` and `operator[](1)` return
`2`, `at(3)` fails the bounds assertion although `3 < capacity()`. -/
theorem at_bounds_checked_witness :
    (⟨2, 4, some [1, 2, 0, 0]⟩ : vector Int).Valid ∧
    (∃ x, (⟨2, 4, some [1, 2, 0, 0]⟩ : vector Int).contents[1]? = some x ∧
      (⟨2, 4, some [1, 2, 0, 0]⟩ : vector Int).at_ 1 = .ok x ∧
      (⟨2, 4, some [1, 2, 0, 0]⟩ : vector Int).subscript 1 = .ok x) ∧
    (⟨2, 4, some [1, 2, 0, 0]⟩ : vector Int).at_ 3 = .error (.assertion 370) :=
  ⟨⟨by decide, by decide, rfl⟩,
    (at_bounds_checked (⟨2, 4, some [1, 2, 0, 0]⟩ : vector Int) 1).2.2.2.2
      ⟨by decide, by decide, rfl⟩ (by decide),
    (at_bounds_checked (⟨2, 4, some [1, 2, 0, 0]⟩ : vector Int) 3).2.2.2.1 (by decide)⟩

/-- C14 (code defect, evaluated at the failing input).  `insert(4, 0)` on the
vector `{10, 10, 10, 10}` (size 4, capacity 4) has to grow.  The allocation of
line 230 yields 4 slots, the old capacity; the commit phase of lines 257-274,
handed any replacement buffer `r`, adopts it and sets `m_capacity` to
`2 * 4 + 1 = 9`: the vector would own the slots of `r`, which are the 4 that were
allocated, with `capacity() == 9`.
The call as a whole does not get that far: it ends in undefined behaviour at
the write of slot 4 (see C15), so no growing `insert` returns at all. -/
theorem grown_capacity_exceeds_allocation :
    (new_array Env.reliable 4 : Except Exception (List Int)) = .ok [0, 0, 0, 0] ∧
    (∀ r : List Int,
      insert_commit Env.reliable 4 4
        (if (4 + 1) % UINT_MOD > 4 then _get_new_capacity 4 else 4) ((4 + 1) % UINT_MOD)
        r ⟨4, 4, some [10, 10, 10, 10]⟩ = ⟨.ok (), ⟨5, 9, some r⟩⟩) ∧
    (∀ r : List Int, (⟨5, 9, some r⟩ : vector Int).slots = r.length ∧
      (⟨5, 9, some r⟩ : vector Int).capacity = 9) ∧
    vector.insert Env.reliable 4 (0 : Int) ⟨4, 4, some [10, 10, 10, 10]⟩ =
      ⟨.error .undefined_behaviour, ⟨4, 4, some [10, 10, 10, 10]⟩⟩ :=
  ⟨rfl, fun _ => rfl, fun _ => ⟨rfl, rfl⟩, rfl⟩

/-- C15 (code defect, evaluated at the failing inputs).  In `insert(2, 0)` on the
full vector `{10, 10, 10, 10}` the replacement buffer has 4 slots; after the
first loop it is `[10, 10, _, _]`, and the first iteration of the second loop,
`new_vec[4] = m_vec[3]`, writes slot 4 of these 4 slots: undefined behaviour.
In the first `insert` into a default-constructed vector the replacement buffer
has 0 slots and `new_vec[0] = value` writes slot 0 of them; in no environment
does the build phase of that call complete. -/
theorem insert_writes_past_replacement_buffer :
    (new_array Env.reliable 4 : Except Exception (List Int)) = .ok [0, 0, 0, 0] ∧
    for_up (fun i nv => assign_from Env.reliable (some [10, 10, 10, (10 : Int)]) i i nv)
      2 0 [0, 0, 0, 0] = .ok [10, 10, 0, 0] ∧
    assign_from Env.reliable (some [10, 10, 10, (10 : Int)]) 4 3 [10, 10, 0, 0] =
      .error .undefined_behaviour ∧
    insert_build Env.reliable 2 (0 : Int) ⟨4, 4, some [10, 10, 10, 10]⟩ =
      .error .undefined_behaviour ∧
    (new_array Env.reliable 0 : Except Exception (List Int)) = .ok [] ∧
    assign_value Env.reliable 0 (10 : Int) [] = .error .undefined_behaviour ∧
    insert_build Env.reliable 0 (10 : Int) vector.ctor_default =
      .error .undefined_behaviour ∧
    ∀ (E : Env) (v : Int) (r : List Int), insert_build E 0 v vector.ctor_default ≠ .ok r := by
  refine ⟨rfl, rfl, rfl, rfl, rfl, rfl, rfl, ?_⟩
  intro E v r h
  have := (@insert_build_ok Int _ E 0 v vector.ctor_default r (Nat.le_refl _) h).2.2.1
  exact absurd this (by decide)

/-- C16 (code defect, evaluated at the failing input).  `insert(0, 9)` on `[1, 2]`
with capacity 4, the element destructor throwing during `delete[] tmp_vec`
(line 264): the call is left with the replacement buffer `[9, 1, 2, _]` adopted
but with `size()` still `2`, because `m_capacity` and `m_size` are assigned
only after the release (lines 268-269).  In general the commit phase left by a
destructor exception has assigned neither `m_size` nor `m_capacity`. -/
theorem release_precedes_bookkeeping :
    vector.insert Env.destructor_throws 0 (9 : Int) ⟨2, 4, some [1, 2, 0, 0]⟩ =
      ⟨.error (.destructor 3), ⟨2, 4, some [9, 1, 2, 0]⟩⟩ ∧
    vector.insert Env.reliable 0 (9 : Int) ⟨2, 4, some [1, 2, 0, 0]⟩ =
      ⟨.ok (), ⟨3, 4, some [9, 1, 2, 0]⟩⟩ ∧
    ∀ (ps pc nc ns n c : Nat) (r buf : List Int) (x : Int),
      insert_commit Env.destructor_throws ps pc nc ns r ⟨n, c, some (x :: buf)⟩ =
        ⟨.error (.destructor 3), ⟨n, c, some r⟩⟩ :=
  ⟨rfl, rfl, fun _ _ _ _ _ _ _ _ _ => rfl⟩

/-- C17 (code defect, evaluated at the failing input).  The vector constructed
from `{1}` satisfies the invariant documented at `m_vec`; `erase(0)` on it
returns with `size() == 0` and the storage pointer still non-null, which
satisfies neither alternative of that invariant. -/
theorem erase_only_element_keeps_buffer :
    vector.ctor_list Env.reliable vector.ctor_default [(1 : Int)] =
      ⟨.ok (), ⟨1, 1, some [1]⟩⟩ ∧
    (⟨1, 1, some [1]⟩ : vector Int).storage_invariant = true ∧
    vector.erase Env.reliable 0 (⟨1, 1, some [1]⟩ : vector Int) =
      ⟨.ok (), ⟨0, 1, some [1]⟩⟩ ∧
    (⟨0, 1, some [1]⟩ : vector Int).storage_invariant = false :=
  ⟨rfl, rfl, rfl, rfl⟩

/-- C18.  For every valid non-empty vector and every environment (also one in
which every allocation and every copy throws), `erase(size() - 1)` returns,
leaves the storage pointer, every buffer slot and `capacity()` as they were,
and decrements `size()` by one. -/
theorem erase_last_only_decrements [Inhabited α] (E : Env) (s : vector α)
    (hv : s.Valid) (h0 : 0 < s.size) :
    s.erase E (s.size - 1) = ⟨.ok (), ⟨s.size - 1, s.capacity, s.m_vec⟩⟩ := by
  have h0' : 0 < s.m_size := h0
  obtain ⟨buf, hm, _⟩ := valid_buffer hv h0'
  have hsz : s.m_size ≤ s.m_capacity := hv.1
  have hcap : s.m_capacity < UINT_MOD := hv.2.1
  have hmod : (s.m_size - 1) % UINT_MOD = s.m_size - 1 := Nat.mod_eq_of_lt (by omega)
  show s.erase E (s.m_size - 1) = ⟨.ok (), ⟨s.m_size - 1, s.m_capacity, s.m_vec⟩⟩
  rw [erase_last (by omega) rfl]
  unfold erase_finish
  rw [assert_all_eq_ok]
  · simp [hmod]
  · intro c hc
    simp [hm, hmod] at hc
    rcases hc with rfl | rfl | rfl <;> rfl

/-- Witness of C18: `erase(3)` on `[1, 2, 3, 4]` in the environment in which
everything throws. -/
theorem erase_last_only_decrements_witness :
    (⟨4, 4, some [1, 2, 3, 4]⟩ : vector Int).Valid ∧
    vector.erase Env.nothing_works 3 (⟨4, 4, some [1, 2, 3, 4]⟩ : vector Int) =
      ⟨.ok (), ⟨3, 4, some [1, 2, 3, 4]⟩⟩ :=
  ⟨⟨by decide, by decide, rfl⟩,
    erase_last_only_decrements Env.nothing_works (⟨4, 4, some [1, 2, 3, 4]⟩ : vector Int)
      ⟨by decide, by decide, rfl⟩ (by decide)⟩

/-- C19 (code defect, evaluated at the failing inputs).  The list constructor
has no member initialisers and assigns no member on its early-return path, so
with an empty list the object keeps the indeterminate values of its members:
with `m_size = 7`, `m_capacity = 9` the assertion of line 150 fails, with a
non-null `m_vec` that of line 149, with `m_capacity = 9` alone that of
line 151. -/
theorem ctor_list_empty_keeps_indeterminate_members :
    vector.ctor_list Env.reliable ⟨7, 9, none⟩ ([] : List Int) =
      ⟨.error (.assertion 150), ⟨7, 9, none⟩⟩ ∧
    vector.ctor_list Env.reliable ⟨0, 0, some [5]⟩ ([] : List Int) =
      ⟨.error (.assertion 149), ⟨0, 0, some [5]⟩⟩ ∧
    vector.ctor_list Env.reliable ⟨0, 9, none⟩ ([] : List Int) =
      ⟨.error (.assertion 151), ⟨0, 9, none⟩⟩ ∧
    ∀ (E : Env) (raw : vector Int), (vector.ctor_list E raw []).state = raw := by
  refine ⟨rfl, rfl, rfl, ?_⟩
  intro E raw
  unfold vector.ctor_list
  simp only [List.length_nil, if_true]
  exact assert_all_state _ _

/-- C20 (code defect, evaluated at the failing inputs).  At
`m_size = m_capacity = 2^32 - 1` the sum `m_size + 1` wraps to `0`: the values
computed at lines 222-227 are `new_size = 0` and `new_capacity = 2^32 - 1`, and
the commit phase fails the assertion `prev_size + 1 == m_size` of line 272.  At
`m_size = m_capacity = 2^31` the new capacity `2^32 + 1` is truncated to `1`
when it is stored in `m_capacity`, and the assertion `m_size <= m_capacity` of
line 273 fails.  The calls as a whole do not get to the commit phase: they
end in undefined behaviour at the write past the replacement buffer
(see C15). -/
theorem insert_bookkeeping_wraps :
    (∀ (r : List Int) (p : Option (List Int)),
      insert_commit Env.reliable 4294967295 4294967295
        (if (4294967295 + 1) % UINT_MOD > 4294967295 then _get_new_capacity 4294967295
         else 4294967295)
        ((4294967295 + 1) % UINT_MOD) r ⟨4294967295, 4294967295, p⟩ =
        ⟨.error (.assertion 272), ⟨0, 4294967295, some r⟩⟩) ∧
    (∀ (r : List Int) (p : Option (List Int)),
      insert_commit Env.reliable 2147483648 2147483648
        (if (2147483648 + 1) % UINT_MOD > 2147483648 then _get_new_capacity 2147483648
         else 2147483648)
        ((2147483648 + 1) % UINT_MOD) r ⟨2147483648, 2147483648, p⟩ =
        ⟨.error (.assertion 273), ⟨2147483649, 1, some r⟩⟩) ∧
    (∀ (v : Int) (p : Option (List Int)),
      vector.insert Env.reliable 0 v ⟨4294967295, 4294967295, p⟩ =
        ⟨.error .undefined_behaviour, ⟨4294967295, 4294967295, p⟩⟩) ∧
    (∀ (v : Int) (p : Option (List Int)),
      vector.insert Env.reliable 0 v ⟨2147483648, 2147483648, p⟩ =
        ⟨.error .undefined_behaviour, ⟨2147483648, 2147483648, p⟩⟩) := by
  refine ⟨?_, ?_, ?_, ?_⟩
  · intro r p
    have h1 : (4294967295 + 1) % UINT_MOD = 0 := by unfold UINT_MOD; omega
    have h2 : ¬ ((0 : Nat) > 4294967295) := by omega
    have h3 : (4294967295 : Nat) % UINT_MOD = 4294967295 := by unfold UINT_MOD; omega
    have h4 : (0 : Nat) % UINT_MOD = 0 := Nat.zero_mod _
    have h5 : (4294967295 + 1) % SIZE_MOD = 4294967296 := by unfold SIZE_MOD; omega
    have h6 : ¬ ((4294967296 : Nat) = 0) := by omega
    unfold insert_commit
    simp only [release_eq_ok (rfl : Env.reliable.release_throws = none)]
    simp only [h1, h2, if_false, h3, h4, h5]
    simp only [assert_all, first_failed, Option.isSome_some, if_true, h6, decide_False]
    rfl
  · intro r p
    have h1 : (2147483648 + 1) % UINT_MOD = 2147483649 := by unfold UINT_MOD; omega
    have h2 : _get_new_capacity 2147483648 = 4294967297 := by
      unfold _get_new_capacity SIZE_MOD
      omega
    have h3 : (4294967297 : Nat) % UINT_MOD = 1 := by unfold UINT_MOD; omega
    have h4 : (2147483649 : Nat) % UINT_MOD = 2147483649 := by unfold UINT_MOD; omega
    have h5 : (2147483648 + 1) % SIZE_MOD = 2147483649 := by unfold SIZE_MOD; omega
    have h6 : (2147483649 : Nat) > 2147483648 := by omega
    have h7 : ¬ ((2147483649 : Nat) ≤ 1) := by omega
    unfold insert_commit
    simp only [release_eq_ok (rfl : Env.reliable.release_throws = none)]
    simp only [h1, h6, if_true, h2, h3, h4, h5]
    simp only [assert_all, first_failed, Option.isSome_some, if_true, h7, decide_False,
      decide_True]
    rfl
  · intro v p
    apply insert_full_undefined
    · show 0 ≤ 4294967295
      omega
    · show 4294967295 ≤ 4294967295
      omega
  · intro v p
    apply insert_full_undefined
    · show 0 ≤ 2147483648
      omega
    · show 2147483648 ≤ 2147483648
      omega

/-- The real `push_back` calls on a default-constructed vector.  The first one on
a default-constructed `vector<size_t>` ends in undefined behaviour, and in no
environment does a `push_back` loop with at least one value return from a
default-constructed vector.  The bookkeeping of lines 222-227 follows the
closed form: from `(0, 0)` it arrives at capacities
`0, 1, 3, 3, 7, 7, 7, 7, 15` for `n = 0, ..., 8`. -/
theorem capacity_closed_form_not_reached :
    vector.push_back Env.reliable (0 : Nat) vector.ctor_default =
      ⟨.error .undefined_behaviour, vector.ctor_default⟩ ∧
    (∀ (E : Env) (v : Nat) (vs : List Nat),
      (push_back_all E (v :: vs) vector.ctor_default).result ≠ .ok ()) ∧
    [0, 1, 2, 3, 4, 5, 6, 7, 8].map bookkeeping_after =
      [(0, 0), (1, 1), (2, 3), (3, 3), (4, 7), (5, 7), (6, 7), (7, 7), (8, 15)] := by
  refine ⟨rfl, ?_, by decide⟩
  intro E v vs h
  unfold push_back_all at h
  cases hp : (vector.push_back E v (vector.ctor_default : vector Nat)).result with
  | error e =>
    simp only [hp] at h
    cases h
  | ok u =>
    have hroom : (0 : Nat) < 0 :=
      (@insert_ok_room Nat _ E vector.ctor_default 0 v hp).2
    omega

/-- C22.  For every vector whose buffer has exactly `capacity()` slots, with
`size() <= capacity()`, every index `i < size()` and every environment, neither
the build phase of `erase(i)` (its reads of `m_vec[0 .. size() - 1]` and its
writes of `new_vec[0 .. size() - 2]`, the replacement buffer having
`capacity()` slots) nor the call as a whole reaches an access outside an
array: the undefined-behaviour branch of the indexing is not taken. -/
theorem erase_stays_in_bounds [Inhabited α] (E : Env) (s : vector α) (i : Nat)
    (hslots : s.slots = s.capacity) (hsz : s.size ≤ s.capacity) (hi : i < s.size) :
    erase_build E i (s.size - 1) s ≠ .error .undefined_behaviour ∧
    (s.erase E i).result ≠ .error .undefined_behaviour := by
  have hi' : i < s.m_size := hi
  have hb0 : erase_build E i (s.m_size - 1) s ≠ .error .undefined_behaviour :=
    erase_build_in_bounds_of_slots hslots hsz hi
  refine ⟨hb0, ?_⟩
  by_cases hl : i = s.m_size - 1
  · rw [erase_last hi' hl]
    intro h
    rcases erase_finish_result s.m_size s.m_capacity (s.m_size - 1) s with h1 | ⟨l, h1⟩ <;>
      rw [h1] at h <;> cases h
  · cases hb : erase_build E i (s.m_size - 1) s with
    | error e =>
      rw [erase_of_build_error hi' hl hb]
      intro h
      rcases unwind_build_result E s.m_capacity e s with h1 | ⟨h1, _⟩
      · rw [h1] at h
        injection h with h
        rw [h] at hb
        exact hb0 hb
      · rw [h1] at h
        cases h
    | ok r =>
      rw [erase_of_build_ok hi' hl hb]
      intro h
      rcases erase_commit_result E s.m_size s.m_capacity (s.m_size - 1) r s with
        h1 | ⟨c, h1⟩ | ⟨l, h1⟩ <;> rw [h1] at h <;> cases h

/-- Witness of C22: `erase(0)` on `[1, 2, 3]` with capacity 4, once with nothing
throwing and once with everything throwing. -/
theorem erase_stays_in_bounds_witness :
    (⟨3, 4, some [1, 2, 3, 0]⟩ : vector Int).slots = 4 ∧
    erase_build Env.reliable 0 2 (⟨3, 4, some [1, 2, 3, 0]⟩ : vector Int) =
      .ok [2, 3, 0, 0] ∧
    (vector.erase Env.reliable 0 (⟨3, 4, some [1, 2, 3, 0]⟩ : vector Int)).result ≠
      .error .undefined_behaviour ∧
    (vector.erase Env.nothing_works 0 (⟨3, 4, some [1, 2, 3, 0]⟩ : vector Int)).result ≠
      .error .undefined_behaviour :=
  ⟨rfl, rfl,
    (erase_stays_in_bounds Env.reliable (⟨3, 4, some [1, 2, 3, 0]⟩ : vector Int) 0 rfl
      (by decide) (by decide)).2,
    (erase_stays_in_bounds Env.nothing_works (⟨3, 4, some [1, 2, 3, 0]⟩ : vector Int) 0 rfl
      (by decide) (by decide)).2⟩

/-- C23.  For every valid vector on which `at(0), ..., at(n - 1)` return the
sequence `xs`, every index `i <= n`, every value `v` and every environment: if
`insert(i, v)` returns, then `erase(i)` on the resulting vector (with nothing
throwing) returns, `size()` is `n` again, `at(0), ..., at(n - 1)` return `xs`
again, and `capacity()` is at least what it was before the two calls. -/
theorem insert_then_erase [Inhabited α] (E : Env) (s : vector α) (xs : List α) (i : Nat)
    (v : α) (hv : s.Valid) (hxs : s.elements = xs.map .ok) (hi : i ≤ xs.length)
    (hins : (s.insert E i v).result = .ok ()) :
    ((s.insert E i v).state.erase Env.reliable i).result = .ok () ∧
    ((s.insert E i v).state.erase Env.reliable i).state.size = xs.length ∧
    ((s.insert E i v).state.erase Env.reliable i).state.elements = xs.map .ok ∧
    s.capacity ≤ ((s.insert E i v).state.erase Env.reliable i).state.capacity := by
  have hc : s.contents = xs := map_ok_injective ((elements_of_valid hv).symm.trans hxs)
  have hn : s.m_size = xs.length := by
    rw [← hc]
    exact (contents_length hv).symm
  obtain ⟨hi', hroom⟩ := insert_ok_room hins
  obtain ⟨hA, hC⟩ : E.alloc_throws s.m_capacity = false ∧
      ∀ j, j ≤ s.m_size → E.copy_throws j = none := by
    cases hb : insert_build E i v s with
    | error e =>
      rw [insert_of_build_error hi' hb] at hins
      exact absurd hins (unwind_build_not_ok _ _ _ _)
    | ok r =>
      obtain ⟨ha, _, _, hc2⟩ := insert_build_ok hi' hb
      exact ⟨ha, hc2⟩
  obtain ⟨r, he, hrl, hrc⟩ := @insert_ok_spec α _ ⟨E.alloc_throws, E.copy_throws, none⟩
    s i v hv hi' hroom hA hC rfl
  have hv1 : (⟨s.m_size + 1, s.m_capacity, some r⟩ : vector α).Valid :=
    ⟨hroom, hv.2.1, hrl⟩
  have hc1 : (⟨s.m_size + 1, s.m_capacity, some r⟩ : vector α).contents =
      xs.take i ++ v :: xs.drop i := by
    show r.take (s.m_size + 1) = _
    rw [hrc, hc]
  obtain ⟨r2, he2, hrl2, hrc2⟩ := @erase_ok_spec α _ Env.reliable
    ⟨s.m_size + 1, s.m_capacity, some r⟩ i hv1 (by show i < s.m_size + 1; omega)
    rfl (fun _ _ => rfl) rfl
  have hv2 : (⟨s.m_size, s.m_capacity, some r2⟩ : vector α).Valid :=
    ⟨hv.1, hv.2.1, hrl2⟩
  rw [insert_ok_release_free hins, he, he2]
  refine ⟨rfl, ?_, ?_, Nat.le_refl _⟩
  · show s.m_size + 1 - 1 = xs.length
    omega
  · have hst : (⟨s.m_size + 1 - 1, s.m_capacity, some r2⟩ : vector α) =
        ⟨s.m_size, s.m_capacity, some r2⟩ := by
      simp
    rw [hst, elements_of_valid hv2]
    show List.map Except.ok (r2.take s.m_size) = _
    have hrc3 : r2.take s.m_size = xs := by
      have : s.m_size + 1 - 1 = s.m_size := by omega
      rw [this] at hrc2
      rw [hrc2, hc1]
      exact splice_eraseIdx xs i v hi
    rw [hrc3]

/-- Witness of C23: `[1, 2]` with capacity 4, `insert(1, 9)` then `erase(1)`. -/
theorem insert_then_erase_witness :
    (⟨2, 4, some [1, 2, 0, 0]⟩ : vector Int).Valid ∧
    (vector.insert Env.reliable 1 (9 : Int) ⟨2, 4, some [1, 2, 0, 0]⟩) =
      ⟨.ok (), ⟨3, 4, some [1, 9, 2, 0]⟩⟩ ∧
    (vector.erase Env.reliable 1 (⟨3, 4, some [1, 9, 2, 0]⟩ : vector Int)).result =
      .ok () ∧
    (vector.erase Env.reliable 1 (⟨3, 4, some [1, 9, 2, 0]⟩ : vector Int)).state.size = 2 ∧
    (vector.erase Env.reliable 1 (⟨3, 4, some [1, 9, 2, 0]⟩ : vector Int)).state.elements =
      [.ok 1, .ok 2] ∧
    4 ≤ (vector.erase Env.reliable 1 (⟨3, 4, some [1, 9, 2, 0]⟩ : vector Int)).state.capacity :=
  ⟨⟨by decide, by decide, rfl⟩, rfl,
    insert_then_erase Env.reliable ⟨2, 4, some [1, 2, 0, 0]⟩ [1, 2] 1 (9 : Int)
      ⟨by decide, by decide, rfl⟩ rfl (by decide) rfl⟩

end ywen
